import Mathlib

/-!
Shallow embedding of the `use-storage-persisted-state` repository.

The embedding covers:
* `StorageSyncManager` (src/storage.ts): per-key listener registry,
  polling-interval normalization, the shared polling timer, the polling
  tick, self-originated notification and the cross-tab storage-event
  handler.  Mutable `Map`s are modelled as insertion-ordered association
  lists (JS `Map` iterates in insertion order; `set` on an existing key
  keeps its position); `window.setInterval` / `clearInterval` are modelled
  by an explicit multiset of live timers plus a fresh-id counter, so that
  "at most one timer is active" is a provable fact rather than a modelling
  assumption.  JS numbers are modelled by `JSNum` (a rational, or one of
  the three non-finite values) with IEEE-style comparison semantics.
* The codecs (src/codecs.ts): `NumberCodec` with its literal encodings of
  the non-finite values, and `JsonCodec` parameterized over the platform
  `JSON.stringify` / `JSON.parse` functions (which are host builtins, not
  repository code); a decode that throws is an `Except.error`.
* The hook-level read/write paths (src/useStoragePersistedState.ts and
  src/storagePersistedState.ts): `getSnapshot`, the hook setter, and the
  standalone `readStoragePersistedState` / `setStoragePersistedState`,
  over a storage medium modelled as an association list from keys to
  strings.  Callbacks are identified by opaque `Nat` ids.
-/

/-! ## JS numbers -/

/-- A JS `number` as far as this library observes it: a finite value
(modelled as a rational; the claims only exercise values that are exact
in binary64) or one of `NaN`, `Infinity`, `-Infinity`. -/
inductive JSNum where
  | nan
  | posInf
  | negInf
  | fin (q : ℚ)
  deriving DecidableEq, Repr

/-- JS `<` on numbers: `NaN` compares false with everything. -/
def jsLt : JSNum → JSNum → Bool
  | .nan, _ => false
  | _, .nan => false
  | .negInf, .negInf => false
  | .negInf, _ => true
  | _, .negInf => false
  | .posInf, _ => false
  | .fin _, .posInf => true
  | .fin a, .fin b => decide (a < b)

/-- JS `<=` on numbers: `NaN` compares false with everything. -/
def jsLe : JSNum → JSNum → Bool
  | .nan, _ => false
  | _, .nan => false
  | .negInf, _ => true
  | _, .negInf => false
  | _, .posInf => true
  | .posInf, _ => false
  | .fin a, .fin b => decide (a ≤ b)

/-- JS `===` on numbers: `NaN === NaN` is false. -/
def jsEq : JSNum → JSNum → Bool
  | .nan, _ => false
  | _, .nan => false
  | .posInf, .posInf => true
  | .negInf, .negInf => true
  | .fin a, .fin b => decide (a = b)
  | _, _ => false

/-- JS `Number.isNaN`. -/
def jsIsNaN : JSNum → Bool
  | .nan => true
  | _ => false

/-- An optional numeric argument as TypeScript types it:
`number | null | undefined`. -/
inductive NumArg where
  | undef
  | null
  | num (x : JSNum)
  deriving DecidableEq, Repr

/-! ## Association lists (the model of JS `Map`) -/

section AList

variable {κ α : Type} [DecidableEq κ]

/-- `Map.get`: the value of the first (and, in well-formed states, only)
entry with the given key. -/
def alookup : List (κ × α) → κ → Option α
  | [], _ => none
  | p :: rest, k => if p.1 = k then some p.2 else alookup rest k

/-- `Map.set`: replace the existing entry in place, else append. -/
def aset (l : List (κ × α)) (k : κ) (v : α) : List (κ × α) :=
  if (alookup l k).isSome then
    l.map (fun p => if p.1 = k then (k, v) else p)
  else
    l ++ [(k, v)]

/-- `Map.delete`. -/
def aerase (l : List (κ × α)) (k : κ) : List (κ × α) :=
  l.filter (fun p => decide (p.1 ≠ k))

end AList

/-! ## StorageSyncManager state -/

/-- Effective options stored per registered callback
(`ListenerOptions` in src/storage.ts). -/
structure ListenerOptions where
  crossTabSync : Bool
  pollingIntervalMs : Option JSNum
  deriving DecidableEq, Repr

/-- Options as passed by callers (`SubscribeOptions`): both fields may be
absent (`undefined`). -/
structure SubscribeOptions where
  crossTabSync : Option Bool := none
  pollingIntervalMs : NumArg := .undef
  deriving DecidableEq, Repr

/-- The mutable state of one `StorageSyncManager`.  `activeTimers` is the
set of interval timers currently live in the host (`window.setInterval`
adds one, `clearInterval` removes one); `pollingIntervalId` is the
manager's own record of the timer it last created. -/
structure ManagerState where
  listeners : List (String × List (Nat × ListenerOptions))
  pollingIntervalId : Option Nat
  pollingIntervalMsActive : Option JSNum
  snapshotCache : List (String × Option String)
  activeTimers : List (Nat × JSNum)
  nextTimerId : Nat
  defaultPollingIntervalMs : JSNum
  deriving DecidableEq, Repr

/-- State of a freshly constructed manager
(`new StorageSyncManager(adapter)` with the default 2000ms interval, as
both exported instances are constructed). -/
def initialState : ManagerState where
  listeners := []
  pollingIntervalId := none
  pollingIntervalMsActive := none
  snapshotCache := []
  activeTimers := []
  nextTimerId := 0
  defaultPollingIntervalMs := .fin 2000

/-! ## StorageSyncManager operations -/

/-- `normalizePollingInterval` (src/storage.ts lines 96-105). -/
def normalizePollingInterval (defaultPollingIntervalMs : JSNum) :
    NumArg → Option JSNum
  | .null => none
  | .undef => some defaultPollingIntervalMs
  | .num x => if jsLe x (.fin 0) || jsIsNaN x then none else some x

/-- One step of the `minInterval` accumulation in
`getMinPollingIntervalMs`: `if (minInterval === null || x < minInterval)
minInterval = x`. -/
def minStep (acc : Option JSNum) (x : JSNum) : Option JSNum :=
  match acc with
  | none => some x
  | some m => if jsLt x m then some x else acc

/-- `getMinPollingIntervalMs` (src/storage.ts lines 107-118): nested
iteration over all keys and their listeners, skipping disabled
listeners. -/
def getMinPollingIntervalMs (s : ManagerState) : Option JSNum :=
  s.listeners.foldl
    (fun acc kv =>
      kv.2.foldl
        (fun a c =>
          match c.2.pollingIntervalMs with
          | none => a
          | some x => minStep a x)
        acc)
    none

/-- The normalized intervals of all polling-enabled listeners, in
registry order; `getMinPollingIntervalMs` is the running minimum of this
list. -/
def enabledIntervals (s : ManagerState) : List JSNum :=
  (s.listeners.map (fun kv => kv.2.filterMap (fun c => c.2.pollingIntervalMs))).flatten

/-- `clearInterval(i)` on the host timer table. -/
def clearIntervalTimer (timers : List (Nat × JSNum)) (i : Nat) :
    List (Nat × JSNum) :=
  timers.filter (fun t => decide (t.1 ≠ i))

/-- `updatePollingInterval` (src/storage.ts lines 120-162), in a browser
environment (`typeof window !== "undefined"`).  Timer ids are positive so
the JS truthiness test `if (this.pollingIntervalId)` coincides with
non-null. -/
def updatePollingInterval (s : ManagerState) : ManagerState :=
  match getMinPollingIntervalMs s with
  | none =>
      let timers :=
        match s.pollingIntervalId with
        | some i => clearIntervalTimer s.activeTimers i
        | none => s.activeTimers
      { s with
        activeTimers := timers
        pollingIntervalId := none
        pollingIntervalMsActive := none
        snapshotCache := [] }
  | some next =>
      if s.pollingIntervalId.isSome
          && (match s.pollingIntervalMsActive with
              | some m => jsEq m next
              | none => false) then
        s
      else
        let timers :=
          match s.pollingIntervalId with
          | some i => clearIntervalTimer s.activeTimers i
          | none => s.activeTimers
        let newId := s.nextTimerId + 1
        { s with
          activeTimers := timers ++ [(newId, next)]
          pollingIntervalId := some newId
          pollingIntervalMsActive := some next
          nextTimerId := newId }

/-- `subscribe(key, callback, options)` (src/storage.ts lines 45-57):
its effect on the manager state. -/
def subscribeStep (k : String) (cb : Nat) (o : SubscribeOptions)
    (s : ManagerState) : ManagerState :=
  let l0 :=
    if (alookup s.listeners k).isSome then s.listeners
    else s.listeners ++ [(k, ([] : List (Nat × ListenerOptions)))]
  let opts : ListenerOptions :=
    { crossTabSync := o.crossTabSync.getD true
      pollingIntervalMs :=
        normalizePollingInterval s.defaultPollingIntervalMs o.pollingIntervalMs }
  let l1 := aset l0 k (aset ((alookup l0 k).getD []) cb opts)
  updatePollingInterval { s with listeners := l1 }

/-- The closure returned by `subscribe` (src/storage.ts lines 59-66),
as invoked on a state `s` for the captured `(key, callback)` pair. -/
def unsubscribeStep (k : String) (cb : Nat) (s : ManagerState) :
    ManagerState :=
  match alookup s.listeners k with
  | none => updatePollingInterval s
  | some cbs =>
      let cbs' := cbs.filter (fun c => decide (c.1 ≠ cb))
      let l1 := aset s.listeners k cbs'
      let l2 := if cbs'.length = 0 then aerase l1 k else l1
      updatePollingInterval { s with listeners := l2 }

/-- The listeners registered for a key (empty when the key is absent). -/
def listenersFor (s : ManagerState) (k : String) :
    List (Nat × ListenerOptions) :=
  (alookup s.listeners k).getD []

/-- Whether a callback id is currently registered for a key. -/
def registeredFor (s : ManagerState) (k : String) (cb : Nat) : Bool :=
  (listenersFor s k).any (fun c => c.1 == cb)

/-- `notify(key)` / `notifyListeners(key)` with no predicate
(src/storage.ts lines 70-86): the callbacks invoked, in registration
order. -/
def notifyIds (s : ManagerState) (k : String) : List Nat :=
  (listenersFor s k).map (fun c => c.1)

/-- `notifyCrossTab(key)` (line 88-90): only listeners with
`crossTabSync` enabled. -/
def notifyCrossTabIds (s : ManagerState) (k : String) : List Nat :=
  ((listenersFor s k).filter (fun c => c.2.crossTabSync)).map (fun c => c.1)

/-- The `storage`-event handler installed by the constructor
(src/storage.ts lines 35-39): `if (e.key && this.listeners.has(e.key))
this.notifyCrossTab(e.key)`.  `e.key` is `null` for a whole-store
`clear()`; the truthiness test also rejects the empty string. -/
def handleStorageEvent (s : ManagerState) (ek : Option String) : List Nat :=
  match ek with
  | none => []
  | some k =>
      if k ≠ "" ∧ (alookup s.listeners k).isSome then notifyCrossTabIds s k
      else []

/-- One key's share of the polling tick (src/storage.ts lines 146-159):
threads the snapshot cache and appends the `(key, callback)` pairs
notified.  `snapshotCache.get` yields `undefined` (here: `none`) for a
missing entry, which is `!==` any `string | null` value. -/
def tickKeyStep (σ : String → Option String)
    (acc : List (String × Option String) × List (String × Nat))
    (kv : String × List (Nat × ListenerOptions)) :
    List (String × Option String) × List (String × Nat) :=
  let shouldPoll := kv.2.any (fun c => c.2.pollingIntervalMs.isSome)
  if shouldPoll then
    let currentValue := σ kv.1
    if alookup acc.1 kv.1 ≠ some currentValue then
      (aset acc.1 kv.1 currentValue,
       acc.2 ++ ((kv.2.filter (fun c => c.2.pollingIntervalMs.isSome)).map
         (fun c => (kv.1, c.1))))
    else acc
  else acc

/-- A full polling tick (src/storage.ts lines 145-160) against a storage
valuation `σ`: the new manager state and the `(key, callback)` pairs
invoked via `notifyPolling`. -/
def pollTick (σ : String → Option String) (s : ManagerState) :
    ManagerState × List (String × Nat) :=
  let r := s.listeners.foldl (tickKeyStep σ) (s.snapshotCache, [])
  ({ s with snapshotCache := r.1 }, r.2)

/-- States of a manager reachable from construction by any sequence of
`subscribe` calls, invocations of returned unsubscribe closures, and
polling ticks (against arbitrary storage contents). -/
inductive Reachable : ManagerState → Prop where
  | init : Reachable initialState
  | subscribe {s} (k : String) (cb : Nat) (o : SubscribeOptions) :
      Reachable s → Reachable (subscribeStep k cb o s)
  | unsubscribe {s} (k : String) (cb : Nat) :
      Reachable s → Reachable (unsubscribeStep k cb s)
  | tick {s} (σ : String → Option String) :
      Reachable s → Reachable (pollTick σ s).1

/-! ## Codecs -/

/-- The decimal exponent of a denominator: the least `k` with
`d ∣ 10^k`, when one exists below the search bound. -/
def decExp (d : Nat) : Option Nat :=
  (List.range 20).find? (fun k => 10 ^ k % d == 0)

/-- Left-pad a digit string with zeros to the given width. -/
def padZeros (s : String) (k : Nat) : String :=
  String.mk (List.replicate (k - s.length) '0') ++ s

/-- JS `String(x)` for a finite number whose value is a terminating
decimal (the only finite values this library's spec exercises); rendered
sign, integer part, and (when nonzero) fractional digits, exactly as the
host prints such values. -/
def ratToDecimalString (q : ℚ) : String :=
  match decExp q.den with
  | some k =>
      let scaled := q.num.natAbs * (10 ^ k / q.den)
      let intPart := scaled / 10 ^ k
      let fracPart := scaled % 10 ^ k
      let sign := if q.num < 0 then "-" else ""
      if k = 0 then sign ++ toString intPart
      else sign ++ toString intPart ++ "." ++ padZeros (toString fracPart) k
  | none => toString q

/-- The numeric value of a nonempty all-digit character list. -/
def digitsVal (l : List Char) : Option Nat :=
  if l ≠ [] ∧ l.all Char.isDigit then
    some (l.foldl (fun acc c => acc * 10 + (c.toNat - 48)) 0)
  else none

/-- Split a character list at the first decimal point, if any. -/
def splitAtDot : List Char → List Char × Option (List Char)
  | [] => ([], none)
  | c :: rest =>
      if c = '.' then ([], some rest)
      else
        let r := splitAtDot rest
        (c :: r.1, r.2)

/-- Parse an (optionally signed) decimal numeral `ddd` or `ddd.ddd`
(fractional digits containing a second point fail the digit test and
yield no value, as the host conversion yields `NaN` there). -/
def parseDecimal (s : String) : Option ℚ :=
  let core (t : List Char) : Option ℚ :=
    match splitAtDot t with
    | (i, none) => (digitsVal i).map (fun n => (n : ℚ))
    | (i, some f) =>
        match digitsVal i, digitsVal f with
        | some n, some m => some ((n : ℚ) + (m : ℚ) / (10 : ℚ) ^ f.length)
        | _, _ => none
  match s.data with
  | '-' :: rest => (core rest).map (fun q => -q)
  | '+' :: rest => core rest
  | cs => core cs

/-- JS `Number(s)` on the fragment the `NumberCodec` can reach: the
empty string, `Infinity` literals, and decimal numerals; anything else
is `NaN`. -/
def jsNumber (s : String) : JSNum :=
  if s = "" then .fin 0
  else if s = "Infinity" ∨ s = "+Infinity" then .posInf
  else if s = "-Infinity" then .negInf
  else
    match parseDecimal s with
    | some q => .fin q
    | none => .nan

/-- JS `String(x)` on a number. -/
def jsNumToString : JSNum → String
  | .nan => "NaN"
  | .posInf => "Infinity"
  | .negInf => "-Infinity"
  | .fin q => ratToDecimalString q

/-- A codec whose decode cannot throw, as the source types
`Codec<number | null>`: `none` is JS `null`. -/
structure SimpleCodec (α : Type) where
  encode : α → Option String
  decode : Option String → α

/-- `NumberCodec` (src/codecs.ts lines 77-91): literal encodings for the
three non-finite values, `null`/empty decodes to `null`, unparseable
text decodes to `null`. -/
def NumberCodec : SimpleCodec (Option JSNum) where
  encode v :=
    match v with
    | none => none
    | some x => some (jsNumToString x)
  decode v :=
    match v with
    | none => none
    | some s =>
        if s = "" then none
        else if s = "NaN" then some .nan
        else if s = "Infinity" then some .posInf
        else if s = "-Infinity" then some .negInf
        else
          let parsed := jsNumber s
          if jsIsNaN parsed then none else some parsed

/-! ## The hook-level value domain -/

/-- A JS value as the hook layer distinguishes it: `undefined`, `null`,
or a concrete payload. -/
inductive JSVal (α : Type) where
  | undef
  | null
  | ofVal (a : α)
  deriving DecidableEq, Repr

/-- A general codec (`Codec<T>` in src/codecs.ts): `encode` returns
`string | null` (and may, like `JSON.stringify(undefined)`, produce
`undefined` at runtime), `decode` takes `string | null` and may throw
(`Except.error`). -/
structure Codec (α : Type) where
  encode : JSVal α → JSVal String
  decode : Option String → Except Unit (JSVal α)

/-- `JsonCodec` (src/codecs.ts lines 23-37), parameterized over the
platform `JSON.stringify` (which yields no string on `undefined`) and
`JSON.parse` (where `none` models a thrown `SyntaxError`).  `decode`
rethrows the parse error; `decode(null)` is `null`. -/
def JsonCodec {α : Type} (stringify : α → Option String)
    (parse : String → Option (JSVal α)) : Codec α where
  encode v :=
    match v with
    | .null => .null
    | .undef => .undef
    | .ofVal a =>
        match stringify a with
        | some s => .ofVal s
        | none => .undef
  decode v :=
    match v with
    | none => .ok .null
    | some s =>
        match parse s with
        | some j => .ok j
        | none => .error ()

/-! ## Storage adapter and hook-level paths -/

/-- The backing medium: key-to-string entries, as a synchronous
`StorageAdapter` exposes it (`getItem` is `alookup`, `setItem` is
`aset`, `removeItem` is `aerase`). -/
def Storage : Type := List (String × String)

/-- `getItem`'s result (`string | null`) viewed in the hook's value
domain (it is never `undefined`). -/
def toRaw : Option String → JSVal String
  | none => .null
  | some s => .ofVal s

/-- The hook's two `useRef` cells (src/useStoragePersistedState.ts lines
83-84): the raw string last decoded or written (`string | null`, and
`undefined` after an encode that produced no string), and the parsed
value it corresponds to (`undefined` initially). -/
structure HookRefs (α : Type) where
  lastRaw : JSVal String
  lastParsed : JSVal α
  deriving DecidableEq, Repr

/-- The refs of a freshly mounted hook. -/
def initialRefs (α : Type) : HookRefs α := { lastRaw := .null, lastParsed := .undef }

/-- The hook's `getSnapshot` (src/useStoragePersistedState.ts lines
86-113): returns the snapshot value, the updated refs, and the storage,
which the body only reads.  A decode failure is caught and yields the
caller-supplied default. -/
def getSnapshotRun {α : Type} [DecidableEq α] (codec : Codec α)
    (defaultValue : JSVal α) (k : String) (σ : Storage)
    (refs : HookRefs α) : JSVal α × HookRefs α × Storage :=
  let raw := alookup σ k
  if raw = none ∧ defaultValue ≠ .undef then (defaultValue, refs, σ)
  else if toRaw raw = refs.lastRaw then
    (match refs.lastParsed with
     | .undef => .null
     | v => v,
     refs, σ)
  else
    match codec.decode raw with
    | .ok decoded => (decoded, { lastRaw := toRaw raw, lastParsed := decoded }, σ)
    | .error _ => (defaultValue, refs, σ)

/-- Whether the write paths' unconditional decode of the currently
stored value succeeds (it is executed inside the `try`; when the key is
absent no decode happens). -/
def currentDecodeOk {α : Type} (codec : Codec α) (σ : Storage) (k : String) :
    Prop :=
  match alookup σ k with
  | some r => codec.decode (some r) ≠ Except.error ()
  | none => True

/-- The hook's setter (src/useStoragePersistedState.ts lines 129-164),
run against a manager state `s` (consulted only by the final
`syncManager.notify(key)`): returns the new storage, the new refs, and
the callback ids notified.  A thrown decode of the current value is
caught: nothing is written and nobody is notified. -/
def setValueRun {α : Type} (s : ManagerState) (codec : Codec α)
    (defaultValue : JSVal α) (k : String)
    (newValueOrFn : JSVal α ⊕ (JSVal α → JSVal α)) (σ : Storage)
    (refs : HookRefs α) : Storage × HookRefs α × List Nat :=
  let currentRes : Except Unit (JSVal α) :=
    match alookup σ k with
    | some r => codec.decode (some r)
    | none => .ok defaultValue
  match currentRes with
  | .error _ => (σ, refs, [])
  | .ok current =>
      let newValue :=
        match newValueOrFn with
        | .inl v => v
        | .inr f => f current
      match newValue with
      | .undef => (aerase σ k, { lastRaw := .null, lastParsed := .undef }, notifyIds s k)
      | .null => (aerase σ k, { lastRaw := .null, lastParsed := .undef }, notifyIds s k)
      | v =>
          let encoded := codec.encode v
          let refs' : HookRefs α := { lastRaw := encoded, lastParsed := v }
          match encoded with
          | .ofVal e => (aset σ k e, refs', notifyIds s k)
          | _ => (aerase σ k, refs', notifyIds s k)

/-- `readStoragePersistedState` (src/storagePersistedState.ts lines
60-80) with its codec already resolved: returns the value and the
storage, which the body only reads. -/
def readStoragePersistedStateRun {α : Type} [DecidableEq α]
    (codec : Codec α) (defaultValue : JSVal α) (k : String) (σ : Storage) :
    JSVal α × Storage :=
  let raw := alookup σ k
  if raw = none ∧ defaultValue ≠ .undef then (defaultValue, σ)
  else
    match codec.decode raw with
    | .ok v => (v, σ)
    | .error _ => (defaultValue, σ)

/-- `setStoragePersistedState` (src/storagePersistedState.ts lines
106-149) with its codec already resolved: like the hook setter but with
`null` as the base for a missing key and no refs.  A thrown decode of
the current value is caught: nothing is written and nobody is
notified. -/
def setStoragePersistedStateRun {α : Type} (s : ManagerState)
    (codec : Codec α) (k : String)
    (newValueOrFn : JSVal α ⊕ (JSVal α → JSVal α)) (σ : Storage) :
    Storage × List Nat :=
  let currentRes : Except Unit (JSVal α) :=
    match alookup σ k with
    | some r => codec.decode (some r)
    | none => .ok .null
  match currentRes with
  | .error _ => (σ, [])
  | .ok current =>
      let newValue :=
        match newValueOrFn with
        | .inl v => v
        | .inr f => f current
      match newValue with
      | .undef => (aerase σ k, notifyIds s k)
      | .null => (aerase σ k, notifyIds s k)
      | v =>
          match codec.encode v with
          | .ofVal e => (aset σ k e, notifyIds s k)
          | _ => (aerase σ k, notifyIds s k)

/-! ## Association-list lemmas -/

section AListLemmas

variable {κ α : Type} [DecidableEq κ]

theorem alookup_eq_none_iff {l : List (κ × α)} {k : κ} :
    alookup l k = none ↔ ∀ p ∈ l, p.1 ≠ k := by
  induction l with
  | nil => simp [alookup]
  | cons p rest ih =>
      by_cases h : p.1 = k <;> simp [alookup, h, ih]

theorem alookup_mem {l : List (κ × α)} {k : κ} {v : α}
    (h : alookup l k = some v) : (k, v) ∈ l := by
  induction l with
  | nil => simp [alookup] at h
  | cons p rest ih =>
      by_cases hp : p.1 = k
      · simp [alookup, hp] at h
        simp [← hp, ← h]
      · simp [alookup, hp] at h
        exact List.mem_cons_of_mem _ (ih h)

theorem alookup_isSome_of_mem {l : List (κ × α)} {p : κ × α}
    (h : p ∈ l) : (alookup l p.1).isSome := by
  induction l with
  | nil => simp at h
  | cons q rest ih =>
      rcases List.mem_cons.mp h with h | h
      · simp [alookup, h]
      · by_cases hq : q.1 = p.1 <;> simp [alookup, hq, ih h]

/-- The in-place-replacement half of `aset`. -/
theorem alookup_replace_self {l : List (κ × α)} {k : κ} {v : α} :
    alookup (l.map (fun p => if p.1 = k then (k, v) else p)) k =
      (alookup l k).map (fun _ => v) := by
  induction l with
  | nil => simp [alookup]
  | cons p rest ih =>
      by_cases hp : p.1 = k
      · simp [alookup, hp]
      · simp [alookup, hp, ih]

theorem alookup_replace_ne {l : List (κ × α)} {k k' : κ} {v : α}
    (h : k' ≠ k) :
    alookup (l.map (fun p => if p.1 = k then (k, v) else p)) k' =
      alookup l k' := by
  induction l with
  | nil => simp [alookup]
  | cons p rest ih =>
      by_cases hp : p.1 = k
      · simp [alookup, hp, Ne.symm h, ih]
      · by_cases hp' : p.1 = k' <;> simp [alookup, hp, hp', h, ih]

theorem alookup_append_single_ne {l : List (κ × α)} {k k' : κ} {v : α}
    (h : k' ≠ k) :
    alookup (l ++ [(k, v)]) k' = alookup l k' := by
  induction l with
  | nil => simp [alookup, Ne.symm h]
  | cons p rest ih =>
      by_cases hp : p.1 = k' <;> simp [alookup, hp, ih]

theorem alookup_aset_self {l : List (κ × α)} {k : κ} {v : α} :
    alookup (aset l k v) k = some v := by
  unfold aset
  by_cases hs : (alookup l k).isSome
  · obtain ⟨w, hw⟩ := Option.isSome_iff_exists.mp hs
    simp [hs, alookup_replace_self, hw]
  · simp only [hs, if_false]
    have hnone : alookup l k = none := by
      cases hh : alookup l k
      · rfl
      · simp [hh] at hs
    induction l with
    | nil => simp [alookup]
    | cons p rest ih =>
        by_cases hp : p.1 = k
        · simp [alookup, hp] at hnone
        · simp only [alookup, hp, if_false] at hnone
          have hs' : ¬(alookup rest k).isSome = true := by simp [hnone]
          simpa [alookup, hp] using ih hs' hnone

theorem alookup_aset_ne {l : List (κ × α)} {k k' : κ} {v : α}
    (h : k' ≠ k) : alookup (aset l k v) k' = alookup l k' := by
  unfold aset
  by_cases hs : (alookup l k).isSome
  · simp [hs, alookup_replace_ne h]
  · simp [hs, alookup_append_single_ne h]

theorem alookup_aerase_self {l : List (κ × α)} {k : κ} :
    alookup (aerase l k) k = none := by
  induction l with
  | nil => simp [aerase, alookup]
  | cons p rest ih =>
      by_cases hp : p.1 = k
      · simpa [aerase, hp] using ih
      · simpa [aerase, alookup, hp] using ih

theorem alookup_aerase_ne {l : List (κ × α)} {k k' : κ} (h : k' ≠ k) :
    alookup (aerase l k) k' = alookup l k' := by
  induction l with
  | nil => simp [aerase]
  | cons p rest ih =>
      by_cases hp : p.1 = k
      · simpa [aerase, alookup, List.filter_cons, hp, Ne.symm h] using ih
      · by_cases hp' : p.1 = k'
        · simp [aerase, alookup, List.filter_cons, hp, hp', h]
        · simpa [aerase, alookup, List.filter_cons, hp, hp'] using ih

theorem keys_aset {l : List (κ × α)} {k : κ} {v : α} :
    (aset l k v).map Prod.fst =
      if (alookup l k).isSome then l.map Prod.fst
      else l.map Prod.fst ++ [k] := by
  unfold aset
  by_cases hs : (alookup l k).isSome
  · simp only [hs, if_true, List.map_map]
    refine List.map_congr_left ?_
    intro p hp
    by_cases h : p.1 = k <;> simp [h, Function.comp]
  · simp [hs]

theorem nodup_keys_aset {l : List (κ × α)} {k : κ} {v : α}
    (h : (l.map Prod.fst).Nodup) : ((aset l k v).map Prod.fst).Nodup := by
  rw [keys_aset]
  by_cases hs : (alookup l k).isSome
  · simpa [hs]
  · rw [if_neg hs]
    have hnone : alookup l k = none := by
      cases hh : alookup l k
      · rfl
      · simp [hh] at hs
    have hk : k ∉ l.map Prod.fst := by
      intro hmem
      obtain ⟨p, hp, hpk⟩ := List.mem_map.mp hmem
      exact (alookup_eq_none_iff.mp hnone p hp) hpk
    simp [List.nodup_append, h, hk]

theorem nodup_keys_aerase {l : List (κ × α)} {k : κ}
    (h : (l.map Prod.fst).Nodup) : ((aerase l k).map Prod.fst).Nodup :=
  ((List.filter_sublist l).map Prod.fst).nodup h

theorem mem_aset {l : List (κ × α)} {k : κ} {v : α} {p : κ × α}
    (h : p ∈ aset l k v) : p = (k, v) ∨ (p ∈ l ∧ p.1 ≠ k) := by
  unfold aset at h
  by_cases hs : (alookup l k).isSome
  · rw [if_pos hs] at h
    obtain ⟨q, hq, hqe⟩ := List.mem_map.mp h
    by_cases hqk : q.1 = k
    · simp only [hqk, if_true] at hqe
      exact Or.inl hqe.symm
    · simp only [hqk, if_false] at hqe
      exact Or.inr ⟨hqe ▸ hq, hqe ▸ hqk⟩
  · rw [if_neg hs] at h
    have hnone : alookup l k = none := by
      cases hh : alookup l k
      · rfl
      · simp [hh] at hs
    rcases List.mem_append.mp h with h | h
    · exact Or.inr ⟨h, alookup_eq_none_iff.mp hnone p h⟩
    · exact Or.inl (List.mem_singleton.mp h)

theorem mem_aerase {l : List (κ × α)} {k : κ} {p : κ × α}
    (h : p ∈ aerase l k) : p ∈ l ∧ p.1 ≠ k := by
  have := List.mem_filter.mp h
  exact ⟨this.1, by simpa using this.2⟩

theorem aset_eq_self {l : List (κ × α)} {k : κ} {v : α}
    (hnd : (l.map Prod.fst).Nodup) (h : alookup l k = some v) :
    aset l k v = l := by
  unfold aset
  rw [h]
  simp only [Option.isSome_some, if_true]
  induction l with
  | nil => simp [alookup] at h
  | cons p rest ih =>
      simp only [List.map_cons, List.nodup_cons] at hnd
      by_cases hp : p.1 = k
      · simp only [alookup, hp, if_true, Option.some_inj] at h
        have htail : ∀ q ∈ rest, (if q.1 = k then (k, v) else q) = q := by
          intro q hq
          have hqk : q.1 ≠ k := by
            intro hqk
            have hm : q.1 ∈ rest.map Prod.fst := List.mem_map_of_mem Prod.fst hq
            rw [hqk, ← hp] at hm
            exact hnd.1 hm
          simp [hqk]
        have hhead : (if p.1 = k then (k, v) else p) = p := by
          simp only [hp, if_true]
          exact Prod.ext hp.symm h.symm
        simp only [List.map_cons, hhead, List.map_congr_left htail, List.cons.injEq,
          true_and]
        exact List.map_id rest
      · simp only [alookup, hp, if_false] at h
        have hhead : (if p.1 = k then (k, v) else p) = p := by simp [hp]
        simp only [List.map_cons, hhead, List.cons.injEq, true_and]
        exact ih hnd.2 h

end AListLemmas

/-! ## Order lemmas for JS numbers -/

theorem jsLe_refl {x : JSNum} (h : x ≠ .nan) : jsLe x x = true := by
  cases x <;> simp [jsLe] at h ⊢

theorem jsLe_of_jsLt {x y : JSNum} (h : jsLt x y = true) : jsLe x y = true := by
  cases x <;> cases y <;> simp [jsLt, jsLe] at h ⊢ <;> exact le_of_lt h

theorem jsLe_of_not_jsLt {x y : JSNum} (hx : x ≠ .nan) (hy : y ≠ .nan)
    (h : jsLt x y = false) : jsLe y x = true := by
  cases x <;> cases y <;>
    simp [jsLt, jsLe] at hx hy h ⊢ <;> exact h

theorem jsLe_trans {x y z : JSNum} (h1 : jsLe x y = true)
    (h2 : jsLe y z = true) : jsLe x z = true := by
  cases x <;> cases y <;> cases z <;>
    simp [jsLe] at h1 h2 ⊢ <;> exact le_trans h1 h2

theorem jsEq_eq {x y : JSNum} (h : jsEq x y = true) : x = y := by
  cases x <;> cases y <;> simp [jsEq] at h ⊢ <;> exact h

theorem jsEq_refl {x : JSNum} (h : x ≠ .nan) : jsEq x x = true := by
  cases x <;> simp [jsEq] at h ⊢

/-! ## The running minimum -/

theorem minStep_ne_none {acc : Option JSNum} {x : JSNum} :
    minStep acc x ≠ none := by
  cases acc with
  | none => simp [minStep]
  | some m =>
      by_cases h : jsLt x m = true <;> simp [minStep, h]

/-- Specification of the source's running-minimum accumulation: over a
list of non-`NaN` values it produces a least element under JS `<=`. -/
theorem foldl_minStep_spec (l : List JSNum) (hl : ∀ x ∈ l, x ≠ .nan) :
    ∀ acc : Option JSNum, (∀ a, acc = some a → a ≠ .nan) →
      (l.foldl minStep acc = none → acc = none ∧ l = []) ∧
      (∀ m, l.foldl minStep acc = some m →
        m ≠ .nan ∧ (acc = some m ∨ m ∈ l) ∧ (∀ x ∈ l, jsLe m x = true) ∧
        (∀ a, acc = some a → jsLe m a = true)) := by
  induction l with
  | nil =>
      intro acc hacc
      refine ⟨fun h => ⟨h, rfl⟩, fun m hm => ?_⟩
      simp only [List.foldl_nil] at hm
      exact ⟨hacc m hm, Or.inl hm, by simp, fun a ha => by
        rw [hm] at ha
        cases ha
        exact jsLe_refl (hacc m hm)⟩
  | cons x rest ih =>
      intro acc hacc
      have hx : x ≠ .nan := hl x (List.mem_cons_self x rest)
      have hrest : ∀ y ∈ rest, y ≠ .nan := fun y hy => hl y (List.mem_cons_of_mem x hy)
      have hacc' : ∀ a, minStep acc x = some a → a ≠ .nan := by
        intro a ha
        cases acc with
        | none =>
            simp [minStep] at ha
            exact ha ▸ hx
        | some b =>
            by_cases hlt : jsLt x b = true <;> simp [minStep, hlt] at ha
            · exact ha ▸ hx
            · exact ha ▸ hacc b rfl
      have hstep_le_x : ∀ a, minStep acc x = some a → jsLe a x = true := by
        intro a ha
        cases acc with
        | none =>
            simp [minStep] at ha
            exact ha ▸ jsLe_refl hx
        | some b =>
            by_cases hlt : jsLt x b = true <;> simp [minStep, hlt] at ha
            · exact ha ▸ jsLe_refl hx
            · exact ha ▸ jsLe_of_not_jsLt hx (hacc b rfl) (by simpa using hlt)
      have hstep_le_acc : ∀ a b, minStep acc x = some a → acc = some b →
          jsLe a b = true := by
        intro a b ha hb
        rw [hb] at ha
        by_cases hlt : jsLt x b = true <;> simp [minStep, hlt] at ha
        · exact ha ▸ jsLe_of_jsLt hlt
        · exact ha ▸ jsLe_refl (hacc b hb)
      have hstep_src : ∀ a, minStep acc x = some a → a = x ∨ acc = some a := by
        intro a ha
        cases acc with
        | none =>
            simp [minStep] at ha
            exact Or.inl ha.symm
        | some b =>
            by_cases hlt : jsLt x b = true <;> simp [minStep, hlt] at ha
            · exact Or.inl ha.symm
            · exact Or.inr (by rw [ha])
      obtain ⟨ihnone, ihsome⟩ := ih hrest (minStep acc x) hacc'
      constructor
      · intro h
        simp only [List.foldl_cons] at h
        exact absurd (ihnone h).1 minStep_ne_none
      · intro m hm
        simp only [List.foldl_cons] at hm
        obtain ⟨hmn, hsrc, hle, hleacc⟩ := ihsome m hm
        refine ⟨hmn, ?_, ?_, ?_⟩
        · rcases hsrc with h | h
          · rcases hstep_src m h with h' | h'
            · exact Or.inr (h' ▸ List.mem_cons_self x rest)
            · exact Or.inl h'
          · exact Or.inr (List.mem_cons_of_mem x h)
        · intro y hy
          rcases List.mem_cons.mp hy with h | h
          · rcases hh : minStep acc x with _ | a
            · exact absurd hh minStep_ne_none
            · exact h ▸ jsLe_trans (hleacc a hh) (hstep_le_x a hh)
          · exact hle y h
        · intro a ha
          rcases hh : minStep acc x with _ | b
          · exact absurd hh minStep_ne_none
          · exact jsLe_trans (hleacc b hh) (hstep_le_acc b a hh ha)

/-- The nested per-key iteration of `getMinPollingIntervalMs` is the
running minimum over the flattened list of enabled intervals. -/
theorem getMin_eq_foldl (s : ManagerState) :
    getMinPollingIntervalMs s = (enabledIntervals s).foldl minStep none := by
  have inner : ∀ (cbs : List (Nat × ListenerOptions)) (acc : Option JSNum),
      cbs.foldl
        (fun a c =>
          match c.2.pollingIntervalMs with
          | none => a
          | some x => minStep a x) acc =
      (cbs.filterMap (fun c => c.2.pollingIntervalMs)).foldl minStep acc := by
    intro cbs
    induction cbs with
    | nil => intro acc; rfl
    | cons c rest ih =>
        intro acc
        cases h : c.2.pollingIntervalMs with
        | none => simp [List.filterMap_cons, h, ih]
        | some x => simp [List.filterMap_cons, h, ih]
  unfold getMinPollingIntervalMs enabledIntervals
  suffices h : ∀ (ls : List (String × List (Nat × ListenerOptions)))
      (acc : Option JSNum),
      ls.foldl
        (fun acc kv =>
          kv.2.foldl
            (fun a c =>
              match c.2.pollingIntervalMs with
              | none => a
              | some x => minStep a x)
            acc)
        acc =
      ((ls.map (fun kv => kv.2.filterMap (fun c => c.2.pollingIntervalMs))).flatten).foldl
        minStep acc by
    exact h s.listeners none
  intro ls
  induction ls with
  | nil => intro acc; rfl
  | cons kv rest ih =>
      intro acc
      simp only [List.foldl_cons, List.map_cons, List.flatten_cons,
        List.foldl_append, inner kv.2 acc]
      exact ih _

/-! ## The manager invariant -/

/-- Registry well-formedness: keys are unique (JS `Map` semantics), a
key's callback map is never empty (empty entries are deleted), callback
ids are unique per key, no stored interval is `NaN` (normalization
filters it), and the configured default is not `NaN` (it is 2000). -/
def WFListeners (s : ManagerState) : Prop :=
  (s.listeners.map Prod.fst).Nodup ∧
  (∀ key cbs, (key, cbs) ∈ s.listeners → cbs ≠ [] ∧
    (cbs.map Prod.fst).Nodup ∧
    ∀ c ∈ cbs, c.2.pollingIntervalMs ≠ some JSNum.nan) ∧
  s.defaultPollingIntervalMs ≠ JSNum.nan

/-- How the manager's `pollingIntervalId` / `pollingIntervalMsActive`
fields relate to the host's live timers. -/
def Wiring (s : ManagerState) : Prop :=
  match s.pollingIntervalId, s.pollingIntervalMsActive with
  | some i, some m => s.activeTimers = [(i, m)] ∧ m ≠ JSNum.nan
  | none, none => s.activeTimers = []
  | _, _ => False

/-- The scheduler invariant: the wiring, plus the fact that the recorded
active interval is the current registry minimum (and that nothing runs
when the minimum is undefined). -/
def TimerInv (s : ManagerState) : Prop :=
  match s.pollingIntervalId, s.pollingIntervalMsActive with
  | some i, some m => s.activeTimers = [(i, m)] ∧ m ≠ JSNum.nan ∧
      getMinPollingIntervalMs s = some m
  | none, none => s.activeTimers = [] ∧ getMinPollingIntervalMs s = none
  | _, _ => False

/-- The snapshot cache is empty whenever no listener has polling
enabled. -/
def CacheInv (s : ManagerState) : Prop :=
  getMinPollingIntervalMs s = none → s.snapshotCache = []

/-- The full reachable-state invariant. -/
def MgrInv (s : ManagerState) : Prop := WFListeners s ∧ TimerInv s ∧ CacheInv s

theorem wiring_of_timerInv {s : ManagerState} (h : TimerInv s) : Wiring s := by
  unfold TimerInv at h
  unfold Wiring
  rcases h1 : s.pollingIntervalId with _ | i <;>
    rcases h2 : s.pollingIntervalMsActive with _ | m <;>
    rw [h1, h2] at h <;> simp_all

theorem getMin_listeners_congr {s t : ManagerState}
    (h : s.listeners = t.listeners) :
    getMinPollingIntervalMs s = getMinPollingIntervalMs t := by
  unfold getMinPollingIntervalMs
  rw [h]

theorem enabledIntervals_no_nan {s : ManagerState} (h : WFListeners s) :
    ∀ x ∈ enabledIntervals s, x ≠ JSNum.nan := by
  intro x hx
  unfold enabledIntervals at hx
  obtain ⟨l, hl, hxl⟩ := List.mem_flatten.mp hx
  obtain ⟨kv, hkv, hkvl⟩ := List.mem_map.mp hl
  obtain ⟨c, hc, hcx⟩ := List.mem_filterMap.mp (hkvl ▸ hxl)
  intro hnan
  exact (h.2.1 kv.1 kv.2 hkv).2.2 c hc (hnan ▸ hcx)

theorem getMin_ne_some_nan {s : ManagerState} (h : WFListeners s) :
    getMinPollingIntervalMs s ≠ some JSNum.nan := by
  intro hc
  rw [getMin_eq_foldl] at hc
  have spec := (foldl_minStep_spec (enabledIntervals s)
    (enabledIntervals_no_nan h) none (by simp)).2 JSNum.nan hc
  exact spec.1 rfl

theorem foldl_minStep_eq_none {l : List JSNum} {acc : Option JSNum}
    (h : l.foldl minStep acc = none) : acc = none ∧ l = [] := by
  induction l generalizing acc with
  | nil => exact ⟨h, rfl⟩
  | cons x rest ih =>
      simp only [List.foldl_cons] at h
      exact absurd (ih h).1 minStep_ne_none

theorem getMin_none_iff {s : ManagerState} :
    getMinPollingIntervalMs s = none ↔ enabledIntervals s = [] := by
  rw [getMin_eq_foldl]
  constructor
  · intro h
    exact (foldl_minStep_eq_none h).2
  · intro h
    rw [h]
    rfl

theorem getMin_none_all_disabled {s : ManagerState}
    (h : getMinPollingIntervalMs s = none) :
    ∀ kv ∈ s.listeners, ∀ c ∈ kv.2, c.2.pollingIntervalMs = none := by
  intro kv hkv c hc
  cases hcp : c.2.pollingIntervalMs with
  | none => rfl
  | some x =>
      exfalso
      have hmem : x ∈ enabledIntervals s := by
        unfold enabledIntervals
        refine List.mem_flatten.mpr ⟨kv.2.filterMap (fun c => c.2.pollingIntervalMs),
          List.mem_map.mpr ⟨kv, hkv, rfl⟩, ?_⟩
        exact List.mem_filterMap.mpr ⟨c, hc, hcp⟩
      rw [getMin_none_iff.mp h] at hmem
      simp at hmem

/-! ## Behaviour of the scheduler recomputation -/

theorem update_eq_stop_noid {s : ManagerState}
    (hmin : getMinPollingIntervalMs s = none)
    (hid : s.pollingIntervalId = none) :
    updatePollingInterval s =
      { s with
        activeTimers := s.activeTimers
        pollingIntervalId := none
        pollingIntervalMsActive := none
        snapshotCache := [] } := by
  unfold updatePollingInterval
  rw [hmin, hid]

theorem update_eq_stop_id {s : ManagerState} {i : Nat}
    (hmin : getMinPollingIntervalMs s = none)
    (hid : s.pollingIntervalId = some i) :
    updatePollingInterval s =
      { s with
        activeTimers := clearIntervalTimer s.activeTimers i
        pollingIntervalId := none
        pollingIntervalMsActive := none
        snapshotCache := [] } := by
  unfold updatePollingInterval
  rw [hmin, hid]

theorem update_eq_keep {s : ManagerState} {i : Nat} {m next : JSNum}
    (hmin : getMinPollingIntervalMs s = some next)
    (hid : s.pollingIntervalId = some i)
    (hms : s.pollingIntervalMsActive = some m)
    (heq : jsEq m next = true) :
    updatePollingInterval s = s := by
  unfold updatePollingInterval
  rw [hmin, hid, hms]
  simp [heq]

theorem update_eq_start_noid {s : ManagerState} {next : JSNum}
    (hmin : getMinPollingIntervalMs s = some next)
    (hid : s.pollingIntervalId = none) :
    updatePollingInterval s =
      { s with
        activeTimers := s.activeTimers ++ [(s.nextTimerId + 1, next)]
        pollingIntervalId := some (s.nextTimerId + 1)
        pollingIntervalMsActive := some next
        nextTimerId := s.nextTimerId + 1 } := by
  unfold updatePollingInterval
  rw [hmin, hid]
  rfl

theorem update_eq_restart {s : ManagerState} {i : Nat} {m next : JSNum}
    (hmin : getMinPollingIntervalMs s = some next)
    (hid : s.pollingIntervalId = some i)
    (hms : s.pollingIntervalMsActive = some m)
    (heq : jsEq m next = false) :
    updatePollingInterval s =
      { s with
        activeTimers := clearIntervalTimer s.activeTimers i ++ [(s.nextTimerId + 1, next)]
        pollingIntervalId := some (s.nextTimerId + 1)
        pollingIntervalMsActive := some next
        nextTimerId := s.nextTimerId + 1 } := by
  unfold updatePollingInterval
  rw [hmin, hid, hms]
  simp [heq]

theorem update_listeners (s : ManagerState) :
    (updatePollingInterval s).listeners = s.listeners := by
  unfold updatePollingInterval
  split
  · rfl
  · split
    · rfl
    · rfl

theorem update_default (s : ManagerState) :
    (updatePollingInterval s).defaultPollingIntervalMs =
      s.defaultPollingIntervalMs := by
  unfold updatePollingInterval
  split
  · rfl
  · split
    · rfl
    · rfl

/-- After `updatePollingInterval`, the scheduler invariant holds and the
cache has been cleared when nothing is left to poll. -/
theorem update_establishes {s : ManagerState} (hw : Wiring s)
    (hnn : ∀ x ∈ enabledIntervals s, x ≠ JSNum.nan) :
    TimerInv (updatePollingInterval s) ∧ CacheInv (updatePollingInterval s) := by
  unfold Wiring at hw
  rcases hid : s.pollingIntervalId with _ | i <;>
    rcases hms : s.pollingIntervalMsActive with _ | m <;>
    rw [hid, hms] at hw
  · -- no recorded timer
    rcases hmin : getMinPollingIntervalMs s with _ | next
    · rw [update_eq_stop_noid hmin hid]
      constructor
      · unfold TimerInv
        simp only
        exact ⟨hw, by rw [getMin_listeners_congr rfl]; exact hmin⟩
      · intro _
        rfl
    · have hnext : next ≠ JSNum.nan := by
        intro hc
        rw [getMin_eq_foldl] at hmin
        have spec := (foldl_minStep_spec (enabledIntervals s) hnn none
          (by simp)).2 next hmin
        exact (hc ▸ spec.1) rfl
      rw [update_eq_start_noid hmin hid]
      constructor
      · unfold TimerInv
        simp only [hw]
        exact ⟨rfl, hnext, by rw [getMin_listeners_congr rfl]; exact hmin⟩
      · intro hc
        have hc' : getMinPollingIntervalMs s = none := hc
        rw [hmin] at hc'
        simp at hc'
  · exact absurd hw (by simp)
  · exact absurd hw (by simp)
  · -- a recorded timer at interval m, live as [(i, m)]
    rcases hmin : getMinPollingIntervalMs s with _ | next
    · rw [update_eq_stop_id hmin hid]
      constructor
      · unfold TimerInv
        simp only
        refine ⟨?_, by rw [getMin_listeners_congr rfl]; exact hmin⟩
        rw [hw.1]
        simp [clearIntervalTimer]
      · intro _
        rfl
    · have hnext : next ≠ JSNum.nan := by
        intro hc
        rw [getMin_eq_foldl] at hmin
        have spec := (foldl_minStep_spec (enabledIntervals s) hnn none
          (by simp)).2 next hmin
        exact (hc ▸ spec.1) rfl
      rcases heq : jsEq m next with _ | _
      · rw [update_eq_restart hmin hid hms heq]
        constructor
        · unfold TimerInv
          simp only
          refine ⟨?_, hnext, by rw [getMin_listeners_congr rfl]; exact hmin⟩
          rw [hw.1]
          simp [clearIntervalTimer]
        · intro hc
          have hc' : getMinPollingIntervalMs s = none := hc
          rw [hmin] at hc'
          simp at hc'
      · have hm : m = next := jsEq_eq heq
        rw [update_eq_keep hmin hid hms heq]
        constructor
        · unfold TimerInv
          rw [hid, hms]
          exact ⟨hw.1, hw.2, hm ▸ hmin⟩
        · intro hc
          rw [hmin] at hc
          cases hc

/-! ## Preservation of the invariant -/

theorem normalize_ne_nan {d : JSNum} (hd : d ≠ JSNum.nan) (a : NumArg) :
    normalizePollingInterval d a ≠ some JSNum.nan := by
  cases a with
  | undef => simpa [normalizePollingInterval] using hd
  | null => simp [normalizePollingInterval]
  | num x =>
      cases x <;> simp [normalizePollingInterval, jsLe, jsIsNaN]

theorem aset_ne_nil {κ α : Type} [DecidableEq κ] {l : List (κ × α)} {k : κ}
    {v : α} : aset l k v ≠ [] := by
  unfold aset
  by_cases hs : (alookup l k).isSome
  · rw [if_pos hs]
    intro hc
    rw [List.map_eq_nil_iff] at hc
    rw [hc] at hs
    simp [alookup] at hs
  · rw [if_neg hs]
    simp

theorem alookup_append_single_self {κ α : Type} [DecidableEq κ]
    {l : List (κ × α)} {k : κ} {v : α} (h : alookup l k = none) :
    alookup (l ++ [(k, v)]) k = some v := by
  induction l with
  | nil => simp [alookup]
  | cons p rest ih =>
      by_cases hp : p.1 = k
      · simp [alookup, hp] at h
      · simp only [alookup, hp, if_false] at h
        simpa [alookup, hp] using ih h

/-- A state whose registry is well-formed and whose timer wiring is sane
satisfies the full invariant after scheduler recomputation. -/
theorem mgrInv_update {s1 : ManagerState} (hwf : WFListeners s1)
    (hw : Wiring s1) : MgrInv (updatePollingInterval s1) := by
  obtain ⟨ht, hc⟩ := update_establishes hw (enabledIntervals_no_nan hwf)
  refine ⟨?_, ht, hc⟩
  unfold WFListeners at hwf ⊢
  rw [update_listeners, update_default]
  exact hwf

theorem wiring_set_listeners {s : ManagerState}
    {l : List (String × List (Nat × ListenerOptions))} (h : Wiring s) :
    Wiring { s with listeners := l } := by
  unfold Wiring at h ⊢
  exact h

theorem mgrInv_subscribe {s : ManagerState} {k : String} {cb : Nat}
    {o : SubscribeOptions} (h : MgrInv s) :
    MgrInv (subscribeStep k cb o s) := by
  obtain ⟨hwf, htimer, _⟩ := h
  unfold subscribeStep
  refine mgrInv_update ?_ (wiring_set_listeners (wiring_of_timerInv htimer))
  obtain ⟨hnd, hent, hdflt⟩ := hwf
  have hopts : (normalizePollingInterval s.defaultPollingIntervalMs
      o.pollingIntervalMs) ≠ some JSNum.nan := normalize_ne_nan hdflt _
  by_cases hs : (alookup s.listeners k).isSome
  · obtain ⟨cbs0, hcbs0⟩ := Option.isSome_iff_exists.mp hs
    have hkmem : (k, cbs0) ∈ s.listeners := alookup_mem hcbs0
    obtain ⟨-, hnd0, hnan0⟩ := hent k cbs0 hkmem
    rw [if_pos hs, hcbs0]
    refine ⟨?_, ?_, hdflt⟩
    · exact nodup_keys_aset hnd
    · intro key cbs hkv
      simp only [Option.getD_some] at hkv
      rcases mem_aset hkv with hkv | ⟨hkv, -⟩
      · injection hkv with hkey hcbs
        subst hcbs
        refine ⟨aset_ne_nil, nodup_keys_aset hnd0, ?_⟩
        intro c hc'
        rcases mem_aset hc' with hc' | ⟨hc', -⟩
        · subst hc'
          exact hopts
        · exact hnan0 c hc'
      · exact hent key cbs hkv
  · have hnone : alookup s.listeners k = none := by
      cases hh : alookup s.listeners k
      · rfl
      · simp [hh] at hs
    have hl0 : alookup (s.listeners ++ [(k, ([] : List (Nat × ListenerOptions)))]) k =
        some [] := alookup_append_single_self hnone
    rw [if_neg hs, hl0]
    refine ⟨?_, ?_, hdflt⟩
    · apply nodup_keys_aset
      have hk : k ∉ s.listeners.map Prod.fst := by
        intro hmem
        obtain ⟨p, hp, hpk⟩ := List.mem_map.mp hmem
        exact (alookup_eq_none_iff.mp hnone p hp) hpk
      simp [List.nodup_append, hnd, hk]
    · intro key cbs hkv
      simp only [Option.getD_some] at hkv
      rcases mem_aset hkv with hkv | ⟨hkv, hkvne⟩
      · injection hkv with hkey hcbs
        subst hcbs
        refine ⟨aset_ne_nil, ?_, ?_⟩
        · exact nodup_keys_aset (by simp)
        · intro c hc'
          rcases mem_aset hc' with hc' | ⟨hc', -⟩
          · subst hc'
            exact hopts
          · simp at hc'
      · rcases List.mem_append.mp hkv with hkv | hkv
        · exact hent key cbs hkv
        · exfalso
          exact hkvne (by simpa using congrArg Prod.fst (List.mem_singleton.mp hkv))

theorem mgrInv_unsubscribe {s : ManagerState} {k : String} {cb : Nat}
    (h : MgrInv s) : MgrInv (unsubscribeStep k cb s) := by
  obtain ⟨hwf, htimer, _⟩ := h
  unfold unsubscribeStep
  cases hl : alookup s.listeners k with
  | none => exact mgrInv_update hwf (wiring_of_timerInv htimer)
  | some cbs =>
      refine mgrInv_update ?_ (wiring_set_listeners (wiring_of_timerInv htimer))
      obtain ⟨hnd, hent, hdflt⟩ := hwf
      have hkmem : (k, cbs) ∈ s.listeners := alookup_mem hl
      obtain ⟨-, hnd0, hnan0⟩ := hent k cbs hkmem
      have hsub : (cbs.filter (fun c => decide (c.1 ≠ cb))).Sublist cbs :=
        List.filter_sublist cbs
      by_cases hz : (cbs.filter (fun c => decide (c.1 ≠ cb))).length = 0
      · rw [if_pos hz]
        refine ⟨?_, ?_, hdflt⟩
        · exact nodup_keys_aerase (nodup_keys_aset hnd)
        · intro key cbs1 hkv
          obtain ⟨hkv, hkvne⟩ := mem_aerase hkv
          rcases mem_aset hkv with hkv | ⟨hkv, -⟩
          · exact absurd (congrArg Prod.fst hkv) (by simpa using hkvne)
          · exact hent key cbs1 hkv
      · rw [if_neg hz]
        refine ⟨?_, ?_, hdflt⟩
        · exact nodup_keys_aset hnd
        · intro key cbs1 hkv
          rcases mem_aset hkv with hkv | ⟨hkv, -⟩
          · injection hkv with hkey hcbs
            subst hcbs
            refine ⟨?_, (hsub.map Prod.fst).nodup hnd0, ?_⟩
            · intro hc
              exact hz (by rw [hc]; rfl)
            · intro c hc'
              exact hnan0 c (hsub.mem hc')
          · exact hent key cbs1 hkv

theorem tick_fold_no_enabled {σ : String → Option String}
    {ls : List (String × List (Nat × ListenerOptions))}
    (h : ∀ kv ∈ ls, ∀ c ∈ kv.2, c.2.pollingIntervalMs = none)
    (init : List (String × Option String) × List (String × Nat)) :
    ls.foldl (tickKeyStep σ) init = init := by
  induction ls generalizing init with
  | nil => rfl
  | cons kv rest ih =>
      have hhd : ∀ c ∈ kv.2, c.2.pollingIntervalMs = none :=
        h kv (List.mem_cons_self kv rest)
      have hsp : kv.2.any (fun c => c.2.pollingIntervalMs.isSome) = false := by
        rw [List.any_eq_false]
        intro c hc
        simp [hhd c hc]
      simp only [List.foldl_cons, tickKeyStep, hsp, Bool.false_eq_true, if_false]
      exact ih (fun kv' hkv' => h kv' (List.mem_cons_of_mem kv hkv')) init

theorem mgrInv_tick {s : ManagerState} (σ : String → Option String)
    (h : MgrInv s) : MgrInv (pollTick σ s).1 := by
  obtain ⟨hwf, htimer, hcache⟩ := h
  refine ⟨hwf, htimer, ?_⟩
  intro hmin
  have hmin' : getMinPollingIntervalMs s = none := hmin
  have hdis := getMin_none_all_disabled hmin'
  show (pollTick σ s).1.snapshotCache = []
  unfold pollTick
  simp only [tick_fold_no_enabled hdis]
  exact hcache hmin'

/-- Every reachable manager state satisfies the invariant. -/
theorem reachable_mgrInv {s : ManagerState} (h : Reachable s) : MgrInv s := by
  induction h with
  | init =>
      refine ⟨⟨by simp [initialState], ?_, by simp [initialState]⟩, ?_, ?_⟩
      · intro key cbs hkv
        simp [initialState] at hkv
      · unfold TimerInv initialState
        exact ⟨rfl, rfl⟩
      · intro _
        rfl
  | subscribe k cb o _ ih => exact mgrInv_subscribe ih
  | unsubscribe k cb _ ih => exact mgrInv_unsubscribe ih
  | tick σ _ ih => exact mgrInv_tick σ ih

/-! ## Behaviour of the write paths -/

theorem setValueRun_invoked {α : Type} {s : ManagerState} {codec : Codec α}
    {dflt : JSVal α} {k : String} {nv : JSVal α ⊕ (JSVal α → JSVal α)}
    {σ : Storage} {refs : HookRefs α} (hdec : currentDecodeOk codec σ k) :
    (setValueRun s codec dflt k nv σ refs).2.2 = notifyIds s k := by
  unfold setValueRun
  unfold currentDecodeOk at hdec
  rcases hl : alookup σ k with _ | r
  · simp only [hl]
    split
    · rfl
    · rfl
    · split <;> rfl
  · simp only [hl] at hdec
    rcases hd : codec.decode (some r) with e | current
    · cases e
      exact absurd hd hdec
    · simp only [hl, hd]
      split
      · rfl
      · rfl
      · split <;> rfl

theorem setStoragePersistedStateRun_invoked {α : Type} {s : ManagerState}
    {codec : Codec α} {k : String} {nv : JSVal α ⊕ (JSVal α → JSVal α)}
    {σ : Storage} (hdec : currentDecodeOk codec σ k) :
    (setStoragePersistedStateRun s codec k nv σ).2 = notifyIds s k := by
  unfold setStoragePersistedStateRun
  unfold currentDecodeOk at hdec
  rcases hl : alookup σ k with _ | r
  · simp only [hl]
    split
    · rfl
    · rfl
    · split <;> rfl
  · simp only [hl] at hdec
    rcases hd : codec.decode (some r) with e | current
    · cases e
      exact absurd hd hdec
    · simp only [hl, hd]
      split
      · rfl
      · rfl
      · split <;> rfl

/-- A value whose write triggers the deletion path: `null`, `undefined`,
or a payload whose encoding is not a string. -/
def encodesToAbsent {α : Type} (codec : Codec α) (v : JSVal α) : Prop :=
  match v with
  | .undef => True
  | .null => True
  | .ofVal a =>
      match codec.encode (.ofVal a) with
      | .ofVal _ => False
      | _ => True

theorem setValueRun_deletes {α : Type} {s : ManagerState} {codec : Codec α}
    {dflt : JSVal α} {k : String} {v : JSVal α} {σ : Storage}
    {refs : HookRefs α} (hdec : currentDecodeOk codec σ k)
    (hv : encodesToAbsent codec v) :
    (setValueRun s codec dflt k (Sum.inl v) σ refs).1 = aerase σ k := by
  unfold setValueRun
  unfold currentDecodeOk at hdec
  unfold encodesToAbsent at hv
  have main : ∀ current : JSVal α,
      (match v with
        | JSVal.undef => (aerase σ k,
            ({ lastRaw := .null, lastParsed := .undef } : HookRefs α), notifyIds s k)
        | JSVal.null => (aerase σ k,
            ({ lastRaw := .null, lastParsed := .undef } : HookRefs α), notifyIds s k)
        | v => match codec.encode v with
            | JSVal.ofVal e => (aset σ k e,
                ({ lastRaw := codec.encode v, lastParsed := v } : HookRefs α),
                notifyIds s k)
            | _ => (aerase σ k,
                ({ lastRaw := codec.encode v, lastParsed := v } : HookRefs α),
                notifyIds s k)).1 = aerase σ k := by
    intro current
    rcases v with _ | _ | a
    · rfl
    · rfl
    · rcases he : codec.encode (.ofVal a) with _ | _ | e
      · simp only [he]
      · simp only [he]
      · simp only [he] at hv
  rcases hl : alookup σ k with _ | r
  · simp only [hl]
    rcases v with _ | _ | a
    · rfl
    · rfl
    · rcases he : codec.encode (.ofVal a) with _ | _ | e
      · simp only [he]
      · simp only [he]
      · simp only [he] at hv
  · simp only [hl] at hdec
    rcases hd : codec.decode (some r) with e | current
    · cases e
      exact absurd hd hdec
    · simp only [hl, hd]
      rcases v with _ | _ | a
      · rfl
      · rfl
      · rcases he : codec.encode (.ofVal a) with _ | _ | e
        · simp only [he]
        · simp only [he]
        · simp only [he] at hv

theorem setStoragePersistedStateRun_deletes {α : Type} {s : ManagerState}
    {codec : Codec α} {k : String} {v : JSVal α} {σ : Storage}
    (hdec : currentDecodeOk codec σ k) (hv : encodesToAbsent codec v) :
    (setStoragePersistedStateRun s codec k (Sum.inl v) σ).1 = aerase σ k := by
  unfold setStoragePersistedStateRun
  unfold currentDecodeOk at hdec
  unfold encodesToAbsent at hv
  rcases hl : alookup σ k with _ | r
  · simp only [hl]
    rcases v with _ | _ | a
    · rfl
    · rfl
    · rcases he : codec.encode (.ofVal a) with _ | _ | e
      · simp only [he]
      · simp only [he]
      · simp only [he] at hv
  · simp only [hl] at hdec
    rcases hd : codec.decode (some r) with e | current
    · cases e
      exact absurd hd hdec
    · simp only [hl, hd]
      rcases v with _ | _ | a
      · rfl
      · rfl
      · rcases he : codec.encode (.ofVal a) with _ | _ | e
        · simp only [he]
        · simp only [he]
        · simp only [he] at hv

theorem read_missing_returns_default {α : Type} [DecidableEq α]
    {codec : Codec α} {d : JSVal α} {k : String} {σ : Storage}
    (hσ : alookup σ k = none) (hd : d ≠ JSVal.undef) :
    readStoragePersistedStateRun codec d k σ = (d, σ) := by
  unfold readStoragePersistedStateRun
  rw [hσ]
  simp [hd]

/-! ## The claims -/

/-- C4: the polling-interval normalization maps `undefined` to the
engine's configured default interval (2000 ms for the exported engine
instances), maps `null`, any value less than or equal to zero, and `NaN`
to disabled (`none`), and maps every positive finite number to
itself. -/
theorem c4_normalize_polling_interval (d : JSNum) :
    normalizePollingInterval d NumArg.undef = some d ∧
    initialState.defaultPollingIntervalMs = JSNum.fin 2000 ∧
    normalizePollingInterval d NumArg.null = none ∧
    (∀ x : JSNum, jsLe x (JSNum.fin 0) = true →
      normalizePollingInterval d (NumArg.num x) = none) ∧
    normalizePollingInterval d (NumArg.num JSNum.nan) = none ∧
    (∀ q : ℚ, 0 < q →
      normalizePollingInterval d (NumArg.num (JSNum.fin q)) =
        some (JSNum.fin q)) := by
  refine ⟨rfl, rfl, rfl, ?_, rfl, ?_⟩
  · intro x hx
    simp [normalizePollingInterval, hx]
  · intro q hq
    have h1 : jsLe (JSNum.fin q) (JSNum.fin 0) = false := by
      simp [jsLe, not_le.mpr hq]
    simp [normalizePollingInterval, h1, jsIsNaN]

/-- C4 witness: the theorem applied at the exported engines' default
of 2000 ms, a negative requested interval, and a positive one. -/
theorem c4_witness :
    normalizePollingInterval (JSNum.fin 2000) (NumArg.num (JSNum.fin (-5))) =
      none ∧
    normalizePollingInterval (JSNum.fin 2000) (NumArg.num (JSNum.fin 100)) =
      some (JSNum.fin 100) :=
  ⟨(c4_normalize_polling_interval (JSNum.fin 2000)).2.2.2.1 (JSNum.fin (-5))
      (by decide),
   (c4_normalize_polling_interval (JSNum.fin 2000)).2.2.2.2.2 100 (by norm_num)⟩

/-- C6: for the Numeric codec, `decode(encode(x)) = x` for
`x ∈ \x7b0, -42, 3.25, NaN, +Infinity, -Infinity\x7d`, and the three
non-finite values are encoded as the literal tokens `"NaN"`,
`"Infinity"`, `"-Infinity"`. -/
theorem c6_numeric_roundtrip :
    NumberCodec.decode (NumberCodec.encode (some (JSNum.fin 0))) =
      some (JSNum.fin 0) ∧
    NumberCodec.decode (NumberCodec.encode (some (JSNum.fin (-42)))) =
      some (JSNum.fin (-42)) ∧
    NumberCodec.decode (NumberCodec.encode (some (JSNum.fin (13/4)))) =
      some (JSNum.fin (13/4)) ∧
    NumberCodec.decode (NumberCodec.encode (some JSNum.nan)) =
      some JSNum.nan ∧
    NumberCodec.decode (NumberCodec.encode (some JSNum.posInf)) =
      some JSNum.posInf ∧
    NumberCodec.decode (NumberCodec.encode (some JSNum.negInf)) =
      some JSNum.negInf ∧
    NumberCodec.encode (some JSNum.nan) = some "NaN" ∧
    NumberCodec.encode (some JSNum.posInf) = some "Infinity" ∧
    NumberCodec.encode (some JSNum.negInf) = some "-Infinity" := by
  have h134 : (13/4 : ℚ) = (⟨13, 4, by norm_num, by norm_num⟩ : ℚ) := by
    rw [Rat.mk'_eq_divInt, Rat.divInt_eq_div]
    norm_num
  have henc : NumberCodec.encode
      (some (JSNum.fin (⟨13, 4, by norm_num, by norm_num⟩ : ℚ))) =
      some "3.25" := by rfl
  have hdec : NumberCodec.decode (some "3.25") =
      some (JSNum.fin (((3 : ℕ) : ℚ) + ((25 : ℕ) : ℚ) / (10 : ℚ) ^ 2)) := by
    rfl
  refine ⟨by rfl, by rfl, ?_, by rfl, rfl, rfl, rfl, rfl, rfl⟩
  rw [h134, henc, hdec]
  simp only [Option.some.injEq, JSNum.fin.injEq]
  rw [← h134]
  push_cast
  norm_num

/-- C7: the Structured (JSON) codec's decode raises (models as
`Except.error`) on malformed text rather than substituting a value, and
both engine-level read paths — the hook's `getSnapshot` and
`readStoragePersistedState` — catch that error and return the
caller-supplied default, leaving the stored string (and the whole
storage) unchanged. -/
theorem c7_structured_decode_failure {α : Type} [DecidableEq α]
    (stringify : α → Option String) (parse : String → Option (JSVal α))
    (raw : String) (hparse : parse raw = none) :
    (JsonCodec stringify parse).decode (some raw) = Except.error () ∧
    (∀ (σ : Storage) (refs : HookRefs α) (dflt : JSVal α) (k : String),
      alookup σ k = some raw → refs.lastRaw ≠ JSVal.ofVal raw →
      getSnapshotRun (JsonCodec stringify parse) dflt k σ refs =
        (dflt, refs, σ)) ∧
    (∀ (σ : Storage) (dflt : JSVal α) (k : String),
      alookup σ k = some raw →
      readStoragePersistedStateRun (JsonCodec stringify parse) dflt k σ =
        (dflt, σ)) := by
  have hdec : (JsonCodec stringify parse).decode (some raw) =
      Except.error () := by
    simp [JsonCodec, hparse]
  refine ⟨hdec, ?_, ?_⟩
  · intro σ refs dflt k hσ hne
    unfold getSnapshotRun
    simp only [hσ, hdec]
    rw [if_neg (by simp)]
    rw [if_neg (show ¬ toRaw (some raw) = refs.lastRaw from
      fun hh => hne (by simpa [toRaw] using hh.symm))]
  · intro σ dflt k hσ
    unfold readStoragePersistedStateRun
    simp only [hσ, hdec]
    rw [if_neg (by simp)]

/-- C7 witness: the theorem applied to a parse function that rejects
the stored string `"x"`. -/
theorem c7_witness :
    getSnapshotRun (α := Nat) (JsonCodec (fun _ => none) (fun _ => none))
      (JSVal.ofVal 7) "k" [("k", "x")] (initialRefs Nat) =
      (JSVal.ofVal 7, initialRefs Nat, [("k", "x")]) ∧
    readStoragePersistedStateRun (α := Nat)
      (JsonCodec (fun _ => none) (fun _ => none)) (JSVal.ofVal 7) "k"
      [("k", "x")] = (JSVal.ofVal 7, [("k", "x")]) :=
  ⟨(c7_structured_decode_failure (fun _ => none) (fun _ => none) "x"
      rfl).2.1 [("k", "x")] (initialRefs Nat) (JSVal.ofVal 7) "k" (by decide)
      (by decide),
   (c7_structured_decode_failure (fun _ => none) (fun _ => none) "x"
      rfl).2.2 [("k", "x")] (JSVal.ofVal 7) "k" (by decide)⟩

/-- C8 counterexample: with the Structured codec and a malformed stored
string (the platform parse rejects it, as `JSON.parse` does on
`"\x7b"`), writing `null` through `setStoragePersistedState` does NOT
remove the key: the write path first decodes the currently stored value
inside its `try`, the thrown decode aborts the call, and the key is left
in the medium — contradicting the claim that writing `null` always
removes the key. -/
theorem c8_counterexample :
    alookup (setStoragePersistedStateRun initialState
      (JsonCodec (fun (_ : Nat) => none) (fun _ => none)) "k"
      (Sum.inl JSVal.null) [("k", "\x7b")]).1 "k" = some "\x7b" := by rfl

/-- C8 (amended): provided decoding the currently stored value does not
throw (the key is absent or its stored string decodes), writing `null`
or `undefined` — or a value whose encoding is the absent marker —
through either codec-mediated write path removes the key from the
backing medium, and a subsequent codec-mediated read with a
non-`undefined` default returns that default. -/
theorem c8_deletion_semantics {α : Type} [DecidableEq α]
    {s : ManagerState} {codec : Codec α} {k : String} {v : JSVal α}
    {σ : Storage} {refs : HookRefs α} {dflt d : JSVal α}
    (hdec : currentDecodeOk codec σ k) (hv : encodesToAbsent codec v)
    (hd : d ≠ JSVal.undef) :
    alookup (setValueRun s codec dflt k (Sum.inl v) σ refs).1 k = none ∧
    alookup (setStoragePersistedStateRun s codec k (Sum.inl v) σ).1 k =
      none ∧
    readStoragePersistedStateRun codec d k
      (setValueRun s codec dflt k (Sum.inl v) σ refs).1 =
      (d, (setValueRun s codec dflt k (Sum.inl v) σ refs).1) ∧
    readStoragePersistedStateRun codec d k
      (setStoragePersistedStateRun s codec k (Sum.inl v) σ).1 =
      (d, (setStoragePersistedStateRun s codec k (Sum.inl v) σ).1) := by
  have h1 := @setValueRun_deletes α s codec dflt k v σ refs hdec hv
  have h2 := @setStoragePersistedStateRun_deletes α s codec k v σ hdec hv
  have hl1 : alookup (setValueRun s codec dflt k (Sum.inl v) σ refs).1 k =
      none := by
    rw [h1]
    exact alookup_aerase_self
  have hl2 : alookup (setStoragePersistedStateRun s codec k (Sum.inl v) σ).1
      k = none := by
    rw [h2]
    exact alookup_aerase_self
  exact ⟨hl1, hl2, read_missing_returns_default hl1 hd,
    read_missing_returns_default hl2 hd⟩

/-- C8 witness: a decodable stored value, writing `null`, reading back
with default `5`. -/
theorem c8_witness :
    alookup (setValueRun initialState
      (JsonCodec (fun (_ : Nat) => none) (fun _ => some (JSVal.ofVal 0)))
      (JSVal.ofVal 0) "k" (Sum.inl JSVal.null) [("k", "1")]
      (initialRefs Nat)).1 "k" = none ∧
    readStoragePersistedStateRun
      (JsonCodec (fun (_ : Nat) => none) (fun _ => some (JSVal.ofVal 0)))
      (JSVal.ofVal 5) "k"
      (setStoragePersistedStateRun initialState
        (JsonCodec (fun (_ : Nat) => none) (fun _ => some (JSVal.ofVal 0)))
        "k" (Sum.inl JSVal.null) [("k", "1")]).1 =
      (JSVal.ofVal 5,
       (setStoragePersistedStateRun initialState
        (JsonCodec (fun (_ : Nat) => none) (fun _ => some (JSVal.ofVal 0)))
        "k" (Sum.inl JSVal.null) [("k", "1")]).1) := by
  have h := @c8_deletion_semantics Nat _ initialState
    (JsonCodec (fun (_ : Nat) => none) (fun _ => some (JSVal.ofVal 0)))
    "k" JSVal.null [("k", "1")] (initialRefs Nat) (JSVal.ofVal 0)
    (JSVal.ofVal 5)
    (by simp [currentDecodeOk, alookup, JsonCodec]) trivial (by decide)
  exact ⟨h.1, h.2.2.2⟩

/-- C2: when the hook's setter or `setStoragePersistedState` performs a
write or delete of key `k` (i.e. the decode of the current value inside
the `try` does not throw), every callback registered for `k` at that
moment is invoked exactly once by the synchronous `notify(k)` before the
setter returns, regardless of its `crossTabSync` or `pollingIntervalMs`
settings; callbacks not registered for `k` are not invoked. -/
theorem c2_local_echo {α : Type} {s : ManagerState} {σ : Storage}
    {refs : HookRefs α} {codec : Codec α} {dflt : JSVal α} {k : String}
    {nv : JSVal α ⊕ (JSVal α → JSVal α)}
    (hs : Reachable s) (hdec : currentDecodeOk codec σ k) :
    (∀ cb opts, (cb, opts) ∈ listenersFor s k →
      ((setValueRun s codec dflt k nv σ refs).2.2.count cb = 1 ∧
       (setStoragePersistedStateRun s codec k nv σ).2.count cb = 1)) ∧
    (∀ cb, cb ∉ (listenersFor s k).map (fun c => c.1) →
      ((setValueRun s codec dflt k nv σ refs).2.2.count cb = 0 ∧
       (setStoragePersistedStateRun s codec k nv σ).2.count cb = 0)) := by
  have h1 := @setValueRun_invoked α s codec dflt k nv σ refs hdec
  have h2 := @setStoragePersistedStateRun_invoked α s codec k nv σ hdec
  rw [h1, h2]
  obtain ⟨hwf, -, -⟩ := reachable_mgrInv hs
  constructor
  · intro cb opts hmem
    have hmap : cb ∈ (listenersFor s k).map (fun c => c.1) :=
      List.mem_map_of_mem _ hmem
    have hnodup : ((listenersFor s k).map (fun c => c.1)).Nodup := by
      unfold listenersFor
      rcases hl : alookup s.listeners k with _ | cbs
      · simp
      · simp only [Option.getD_some]
        exact (hwf.2.1 k cbs (alookup_mem hl)).2.1
    have hc : (notifyIds s k).count cb = 1 :=
      List.count_eq_one_of_mem hnodup hmap
    exact ⟨hc, hc⟩
  · intro cb hmem
    have hc : (notifyIds s k).count cb = 0 :=
      List.count_eq_zero.mpr hmem
    exact ⟨hc, hc⟩

/-- C2 witness: two listeners on `"a"` with opposite sync/polling
settings and one on `"b"`; a write to `"a"` notifies exactly the two
`"a"` listeners once each and never the `"b"` listener. -/
theorem c2_witness :
    ((setValueRun
        (subscribeStep "a" 5
          { crossTabSync := some false, pollingIntervalMs := NumArg.null }
          (subscribeStep "a" 7 {} (subscribeStep "b" 9 {} initialState)))
        (JsonCodec (fun (_ : Nat) => none) (fun _ => none)) (JSVal.ofVal 0)
        "a" (Sum.inl (JSVal.ofVal 3)) [] (initialRefs Nat)).2.2.count 5 =
      1) ∧
    ((setValueRun
        (subscribeStep "a" 5
          { crossTabSync := some false, pollingIntervalMs := NumArg.null }
          (subscribeStep "a" 7 {} (subscribeStep "b" 9 {} initialState)))
        (JsonCodec (fun (_ : Nat) => none) (fun _ => none)) (JSVal.ofVal 0)
        "a" (Sum.inl (JSVal.ofVal 3)) [] (initialRefs Nat)).2.2.count 7 =
      1) ∧
    ((setStoragePersistedStateRun
        (subscribeStep "a" 5
          { crossTabSync := some false, pollingIntervalMs := NumArg.null }
          (subscribeStep "a" 7 {} (subscribeStep "b" 9 {} initialState)))
        (JsonCodec (fun (_ : Nat) => none) (fun _ => none)) "a"
        (Sum.inl (JSVal.ofVal 3)) []).2.count 9 = 0) := by
  have h := @c2_local_echo Nat
    (subscribeStep "a" 5
      { crossTabSync := some false, pollingIntervalMs := NumArg.null }
      (subscribeStep "a" 7 {} (subscribeStep "b" 9 {} initialState)))
    [] (initialRefs Nat)
    (JsonCodec (fun (_ : Nat) => none) (fun _ => none))
    (JSVal.ofVal 0) "a" (Sum.inl (JSVal.ofVal 3))
    (Reachable.subscribe "a" 5 _ (Reachable.subscribe "a" 7 _
      (Reachable.subscribe "b" 9 _ Reachable.init)))
    trivial
  exact ⟨(h.1 5 { crossTabSync := false, pollingIntervalMs := none }
      (by decide)).1,
    (h.1 7 { crossTabSync := true, pollingIntervalMs := some (JSNum.fin 2000) }
      (by decide)).1,
    (h.2 9 (by decide)).2⟩

/-! ## Polling-tick fold lemmas -/

theorem alookup_of_mem_of_nodup {κ α : Type} [DecidableEq κ]
    {l : List (κ × α)} {k : κ} {v : α}
    (hnd : (l.map Prod.fst).Nodup) (h : (k, v) ∈ l) :
    alookup l k = some v := by
  induction l with
  | nil => simp at h
  | cons p rest ih =>
      simp only [List.map_cons, List.nodup_cons] at hnd
      rcases List.mem_cons.mp h with h | h
      · rw [← h]
        simp [alookup]
      · have hp : p.1 ≠ k := by
          intro hpk
          apply hnd.1
          rw [hpk]
          exact List.mem_map_of_mem Prod.fst h
        simp [alookup, hp, ih hnd.2 h]

theorem tickKeyStep_snd {σ : String → Option String}
    (acc : List (String × Option String) × List (String × Nat))
    (kv : String × List (Nat × ListenerOptions)) :
    ∃ u, (tickKeyStep σ acc kv).2 = acc.2 ++ u := by
  dsimp only [tickKeyStep]
  split
  · split
    · exact ⟨_, rfl⟩
    · exact ⟨[], (List.append_nil acc.2).symm⟩
  · exact ⟨[], (List.append_nil acc.2).symm⟩

theorem tickKeyStep_fst_lookup_ne {σ : String → Option String}
    {acc : List (String × Option String) × List (String × Nat)}
    {kv : String × List (Nat × ListenerOptions)} {k : String}
    (h : kv.1 ≠ k) :
    alookup (tickKeyStep σ acc kv).1 k = alookup acc.1 k := by
  dsimp only [tickKeyStep]
  split
  · split
    · exact alookup_aset_ne (Ne.symm h)
    · rfl
  · rfl

theorem tick_invoked_mono {σ : String → Option String}
    (ls : List (String × List (Nat × ListenerOptions))) :
    ∀ (cache : List (String × Option String)) (acc : List (String × Nat)),
      ∃ t, (ls.foldl (tickKeyStep σ) (cache, acc)).2 = acc ++ t := by
  induction ls with
  | nil =>
      intro cache acc
      exact ⟨[], by simp⟩
  | cons kv rest ih =>
      intro cache acc
      simp only [List.foldl_cons]
      obtain ⟨t, ht⟩ := ih (tickKeyStep σ (cache, acc) kv).1
        (tickKeyStep σ (cache, acc) kv).2
      obtain ⟨u, hu⟩ := tickKeyStep_snd (σ := σ) (cache, acc) kv
      exact ⟨u ++ t, by rw [ht, hu, List.append_assoc]⟩

theorem tick_invoked_src {σ : String → Option String}
    (ls : List (String × List (Nat × ListenerOptions))) :
    ∀ (cache : List (String × Option String)) (acc : List (String × Nat))
      (x : String × Nat), x ∈ (ls.foldl (tickKeyStep σ) (cache, acc)).2 →
      x ∈ acc ∨ ∃ cbs opts, (x.1, cbs) ∈ ls ∧ (x.2, opts) ∈ cbs ∧
        opts.pollingIntervalMs.isSome = true := by
  induction ls with
  | nil =>
      intro cache acc x hx
      exact Or.inl hx
  | cons kv rest ih =>
      intro cache acc x hx
      simp only [List.foldl_cons] at hx
      rcases ih (tickKeyStep σ (cache, acc) kv).1
          (tickKeyStep σ (cache, acc) kv).2 x hx with
        hx' | ⟨cbs, opts, hmem, hin, hop⟩
      · -- x came from this key's step (or was already accumulated)
        dsimp only [tickKeyStep] at hx'
        split at hx'
        · split at hx'
          · rcases List.mem_append.mp hx' with hx' | hx'
            · exact Or.inl hx'
            · obtain ⟨c, hc, hcx⟩ := List.mem_map.mp hx'
              obtain ⟨hcmem, hcsome⟩ := List.mem_filter.mp hc
              refine Or.inr ⟨kv.2, c.2, ?_, ?_, by simpa using hcsome⟩
              · rw [← hcx]
                exact List.mem_cons_self kv rest
              · rw [← hcx]
                exact hcmem
          · exact Or.inl hx'
        · exact Or.inl hx'
      · exact Or.inr ⟨cbs, opts, List.mem_cons_of_mem kv hmem, hin, hop⟩

/-- C5: a callback registered with polling disabled
(`pollingIntervalMs` normalized to `null`) is never invoked by the
polling-tick notification path, for any storage contents and any
reachable state — in particular even when a polling-enabled callback on
the same key detects a change on that tick. -/
theorem c5_disabled_polling_isolation {s : ManagerState}
    {σ : String → Option String} {k : String} {cb : Nat}
    {opts : ListenerOptions} (hs : Reachable s)
    (hmem : (cb, opts) ∈ listenersFor s k)
    (hdis : opts.pollingIntervalMs = none) :
    (k, cb) ∉ (pollTick σ s).2 := by
  intro hin
  obtain ⟨hwf, -, -⟩ := reachable_mgrInv hs
  dsimp only [pollTick] at hin
  rcases tick_invoked_src s.listeners s.snapshotCache [] (k, cb) hin with
    h | ⟨cbs, opts', hmem', hin', hop⟩
  · simp at h
  · have hl : alookup s.listeners k = some cbs :=
      alookup_of_mem_of_nodup hwf.1 hmem'
    have hmem2 : (cb, opts) ∈ cbs := by
      unfold listenersFor at hmem
      rw [hl] at hmem
      exact hmem
    have hnd : (cbs.map Prod.fst).Nodup := (hwf.2.1 k cbs hmem').2.1
    have heq : opts = opts' := by
      have e1 : alookup cbs cb = some opts :=
        alookup_of_mem_of_nodup hnd hmem2
      have e2 : alookup cbs cb = some opts' :=
        alookup_of_mem_of_nodup hnd hin'
      rw [e1] at e2
      exact Option.some.inj e2
    rw [← heq, hdis] at hop
    simp at hop

/-- C5 witness: on key `"a"`, listener 1 has polling disabled and
listener 2 has it enabled; a tick that detects a change never invokes
listener 1. -/
theorem c5_witness :
    ("a", 1) ∉ (pollTick (fun _ => some "v")
      (subscribeStep "a" 1 { pollingIntervalMs := NumArg.null }
        (subscribeStep "a" 2 {} initialState))).2 :=
  @c5_disabled_polling_isolation
    (subscribeStep "a" 1 { pollingIntervalMs := NumArg.null }
      (subscribeStep "a" 2 {} initialState))
    (fun _ => some "v") "a" 1
    { crossTabSync := true, pollingIntervalMs := none }
    (Reachable.subscribe "a" 1 _ (Reachable.subscribe "a" 2 _ Reachable.init))
    (by decide) rfl

/-! ## Detection of external changes by the tick -/

theorem tick_fold_detect {σ : String → Option String} :
    ∀ (ls : List (String × List (Nat × ListenerOptions)))
      (cache : List (String × Option String)) (acc : List (String × Nat))
      (k : String) (cbs : List (Nat × ListenerOptions)) (cb : Nat)
      (opts : ListenerOptions),
      (ls.map Prod.fst).Nodup → (k, cbs) ∈ ls → (cb, opts) ∈ cbs →
      opts.pollingIntervalMs.isSome = true →
      alookup cache k ≠ some (σ k) →
      (k, cb) ∈ (ls.foldl (tickKeyStep σ) (cache, acc)).2 := by
  intro ls
  induction ls with
  | nil =>
      intro cache acc k cbs cb opts _ h
      simp at h
  | cons kv rest ih =>
      intro cache acc k cbs cb opts hnd hmem hcbm hop hch
      simp only [List.map_cons, List.nodup_cons] at hnd
      simp only [List.foldl_cons]
      rcases List.mem_cons.mp hmem with hmem | hmem
      · have hkv1 : kv.1 = k := by rw [← hmem]
        have hkv2 : kv.2 = cbs := by rw [← hmem]
        have hsp : kv.2.any (fun c => c.2.pollingIntervalMs.isSome) = true := by
          rw [hkv2]
          exact List.any_eq_true.mpr ⟨(cb, opts), hcbm, hop⟩
        have hch' : alookup cache kv.1 ≠ some (σ kv.1) := by
          rw [hkv1]
          exact hch
        have hstep : (tickKeyStep σ (cache, acc) kv).2 =
            acc ++ (kv.2.filter (fun c => c.2.pollingIntervalMs.isSome)).map
              (fun c => (kv.1, c.1)) := by
          dsimp only [tickKeyStep]
          rw [if_pos hsp, if_pos hch']
        have hmem2 : (k, cb) ∈ (tickKeyStep σ (cache, acc) kv).2 := by
          rw [hstep, hkv1, hkv2]
          refine List.mem_append.mpr (Or.inr ?_)
          exact List.mem_map.mpr ⟨(cb, opts),
            List.mem_filter.mpr ⟨hcbm, by simpa using hop⟩, rfl⟩
        obtain ⟨t, ht⟩ := tick_invoked_mono rest
          (tickKeyStep σ (cache, acc) kv).1 (tickKeyStep σ (cache, acc) kv).2
        show (k, cb) ∈ (rest.foldl (tickKeyStep σ)
          ((tickKeyStep σ (cache, acc) kv).1,
           (tickKeyStep σ (cache, acc) kv).2)).2
        rw [ht]
        exact List.mem_append.mpr (Or.inl hmem2)
      · have hkne : kv.1 ≠ k := by
          intro he
          apply hnd.1
          rw [he]
          exact List.mem_map_of_mem Prod.fst hmem
        have hch' : alookup (tickKeyStep σ (cache, acc) kv).1 k ≠
            some (σ k) := by
          rw [tickKeyStep_fst_lookup_ne hkne]
          exact hch
        have := ih (tickKeyStep σ (cache, acc) kv).1
          (tickKeyStep σ (cache, acc) kv).2 k cbs cb opts hnd.2 hmem hcbm hop
          hch'
        show (k, cb) ∈ (rest.foldl (tickKeyStep σ)
          ((tickKeyStep σ (cache, acc) kv).1,
           (tickKeyStep σ (cache, acc) kv).2)).2
        exact this

/-- C10: the cross-context storage-event handler invokes no callbacks
when the event's key is `null` (a whole-store `clear()` in another
context) or when the key has no registered listeners; such a clear is
nonetheless observable via the polling path, whose tick notifies the
polling-enabled listeners of a key whose value became absent. -/
theorem c10_clear_event {s : ManagerState} (hs : Reachable s) :
    handleStorageEvent s none = [] ∧
    (∀ k, alookup s.listeners k = none →
      handleStorageEvent s (some k) = []) ∧
    (∀ (σ : String → Option String) (k : String) (cb : Nat)
      (opts : ListenerOptions), (cb, opts) ∈ listenersFor s k →
      opts.pollingIntervalMs.isSome = true → σ k = none →
      alookup s.snapshotCache k ≠ some none →
      (k, cb) ∈ (pollTick σ s).2) := by
  refine ⟨rfl, ?_, ?_⟩
  · intro k hk
    dsimp only [handleStorageEvent]
    rw [hk]
    simp
  · intro σ k cb opts hmem hop hσ hch
    obtain ⟨hwf, -, -⟩ := reachable_mgrInv hs
    rcases hl : alookup s.listeners k with _ | cbs
    · unfold listenersFor at hmem
      rw [hl] at hmem
      simp at hmem
    · have hmem2 : (cb, opts) ∈ cbs := by
        unfold listenersFor at hmem
        rw [hl] at hmem
        exact hmem
      have hentry : (k, cbs) ∈ s.listeners := alookup_mem hl
      have hch' : alookup s.snapshotCache k ≠ some (σ k) := by
        rw [hσ]
        exact hch
      have := tick_fold_detect s.listeners s.snapshotCache [] k cbs cb opts
        hwf.1 hentry hmem2 hop hch'
      dsimp only [pollTick]
      exact this

/-- C10 witness: with one polling listener on `"a"`, a `null`-key event
and an event for an unregistered key invoke nobody, while a tick against
a cleared store does notify the listener. -/
theorem c10_witness :
    handleStorageEvent (subscribeStep "a" 3 {} initialState) none = [] ∧
    handleStorageEvent (subscribeStep "a" 3 {} initialState) (some "z") =
      [] ∧
    ("a", 3) ∈ (pollTick (fun _ => none)
      (subscribeStep "a" 3 {} initialState)).2 := by
  have h := c10_clear_event (Reachable.subscribe "a" 3 {} Reachable.init)
  exact ⟨h.1, h.2.1 "z" (by decide),
    h.2.2 (fun _ => none) "a" 3
      { crossTabSync := true, pollingIntervalMs := some (JSNum.fin 2000) }
      (by decide) rfl rfl (by decide)⟩

/-! ## Cache behaviour for keys without polling observers -/

theorem tick_fold_no_enabled_key {σ : String → Option String} :
    ∀ (ls : List (String × List (Nat × ListenerOptions)))
      (cache : List (String × Option String)) (acc : List (String × Nat))
      (k : String),
      (∀ cbs, (k, cbs) ∈ ls → ∀ c ∈ cbs, c.2.pollingIntervalMs = none) →
      alookup (ls.foldl (tickKeyStep σ) (cache, acc)).1 k =
        alookup cache k := by
  intro ls
  induction ls with
  | nil =>
      intro cache acc k _
      rfl
  | cons kv rest ih =>
      intro cache acc k h
      simp only [List.foldl_cons]
      have hstep : alookup (tickKeyStep σ (cache, acc) kv).1 k =
          alookup cache k := by
        by_cases hkv : kv.1 = k
        · have hall : ∀ c ∈ kv.2, c.2.pollingIntervalMs = none := by
            have hm : (k, kv.2) ∈ kv :: rest := by
              rw [← hkv]
              exact List.mem_cons_self kv rest
            exact h kv.2 hm
          have hsp : kv.2.any (fun c => c.2.pollingIntervalMs.isSome) =
              false := by
            rw [List.any_eq_false]
            intro c hc
            simp [hall c hc]
          dsimp only [tickKeyStep]
          rw [if_neg (by simp [hsp])]
        · exact tickKeyStep_fst_lookup_ne hkv
      have htail := ih (tickKeyStep σ (cache, acc) kv).1
        (tickKeyStep σ (cache, acc) kv).2 k
        (fun cbs hm => h cbs (List.mem_cons_of_mem kv hm))
      show alookup (rest.foldl (tickKeyStep σ)
        ((tickKeyStep σ (cache, acc) kv).1,
         (tickKeyStep σ (cache, acc) kv).2)).1 k = alookup cache k
      rw [htail, hstep]

/-- C3 counterexample setup: the external store holds `"x"` at `"a"`
and `"y"` elsewhere. -/
def c3Sigma : String → Option String :=
  fun k => if k = "a" then some "x" else some "y"

/-- C3 counterexample state: subscribe polling observers on `"a"` and
`"b"`, let one tick populate the snapshot cache, then unsubscribe the
`"a"` observer. -/
def c3State : ManagerState :=
  unsubscribeStep "a" 1
    (pollTick c3Sigma
      (subscribeStep "b" 2 { pollingIntervalMs := NumArg.num (JSNum.fin 200) }
        (subscribeStep "a" 1
          { pollingIntervalMs := NumArg.num (JSNum.fin 100) }
          initialState))).1

/-- C3 counterexample: a reachable state in which the snapshot cache
still holds an entry for key `"a"` although `"a"` has no registered
observer at all — the cache entry is not removed when the key's last
polling-enabled observer unsubscribes, because `updatePollingInterval`
only clears the whole cache when no enabled observer remains anywhere
(here key `"b"` still has one). -/
theorem c3_counterexample :
    Reachable c3State ∧
    alookup c3State.snapshotCache "a" = some (some "x") ∧
    alookup c3State.listeners "a" = none := by
  refine ⟨?_, by decide, by decide⟩
  exact Reachable.unsubscribe "a" 1 (Reachable.tick c3Sigma
    (Reachable.subscribe "b" 2 _ (Reachable.subscribe "a" 1 _
      Reachable.init)))

/-- C3 (amended): the snapshot cache is emptied exactly when no
registered observer anywhere has polling enabled, and a polling tick
never creates or changes a cache entry for a key that has no
polling-enabled observer; but an existing entry for such a key persists
as long as some other key still has a polling-enabled observer. -/
theorem c3_snapshot_cache {s : ManagerState} (hs : Reachable s) :
    (getMinPollingIntervalMs s = none → s.snapshotCache = []) ∧
    (∀ (σ : String → Option String) (k : String),
      (∀ cbs, (k, cbs) ∈ s.listeners →
        ∀ c ∈ cbs, c.2.pollingIntervalMs = none) →
      alookup (pollTick σ s).1.snapshotCache k =
        alookup s.snapshotCache k) := by
  obtain ⟨-, -, hcache⟩ := reachable_mgrInv hs
  refine ⟨hcache, ?_⟩
  intro σ k h
  dsimp only [pollTick]
  exact tick_fold_no_enabled_key s.listeners s.snapshotCache [] k h

/-- C3 witness: after the last enabled observer unsubscribes the cache
is empty, and a tick leaves the (empty) cache entry of an
unregistered key untouched. -/
theorem c3_witness :
    (unsubscribeStep "a" 1 (subscribeStep "a" 1
      { pollingIntervalMs := NumArg.num (JSNum.fin 100) }
      initialState)).snapshotCache = [] ∧
    alookup (pollTick (fun _ => some "v")
      (subscribeStep "a" 1 { pollingIntervalMs := NumArg.null }
        initialState)).1.snapshotCache "a" =
      alookup (subscribeStep "a" 1 { pollingIntervalMs := NumArg.null }
        initialState).snapshotCache "a" := by
  have h1 := c3_snapshot_cache (Reachable.unsubscribe "a" 1
    (Reachable.subscribe "a" 1
      { pollingIntervalMs := NumArg.num (JSNum.fin 100) } Reachable.init))
  have h2 := c3_snapshot_cache (Reachable.subscribe "a" 1
    { pollingIntervalMs := NumArg.null } Reachable.init)
  refine ⟨h1.1 (by decide), h2.2 (fun _ => some "v") "a" ?_⟩
  intro cbs hm c hc
  have hls : (subscribeStep "a" 1 { pollingIntervalMs := NumArg.null }
      initialState).listeners =
      [("a", [(1, { crossTabSync := true, pollingIntervalMs := none })])] := by
    decide
  rw [hls] at hm
  rcases List.mem_singleton.mp hm with h
  injection h with h1 h2
  subst h2
  rcases List.mem_singleton.mp hc with rfl
  rfl

/-! ## Idempotence of the unsubscribe closure -/

/-- On an invariant-satisfying state, the scheduler recomputation is a
no-op: the timer already matches the minimum and the cache is already
cleared when nothing is polled. -/
theorem update_noop {s : ManagerState} (h : MgrInv s) :
    updatePollingInterval s = s := by
  obtain ⟨-, htimer, hcache⟩ := h
  unfold TimerInv at htimer
  rcases hid : s.pollingIntervalId with _ | i <;>
    rcases hms : s.pollingIntervalMsActive with _ | m <;>
    rw [hid, hms] at htimer
  · obtain ⟨ht, hmin⟩ := htimer
    rw [update_eq_stop_noid hmin hid]
    have hc : s.snapshotCache = [] := hcache hmin
    cases s
    simp_all
  · exact absurd htimer (by simp)
  · exact absurd htimer (by simp)
  · obtain ⟨-, hnan, hmin⟩ := htimer
    exact update_eq_keep hmin hid hms (jsEq_refl hnan)

/-- C9 counterexample: the returned unsubscribe closure is NOT a no-op
on every later invocation under arbitrary interleavings.  After the
first invocation removed the registration, re-subscribing the same
callback for the same key and invoking the stale closure again removes
the fresh registration — the registry changes. -/
theorem c9_counterexample :
    (unsubscribeStep "a" 1 (subscribeStep "a" 1 {}
      (unsubscribeStep "a" 1 (subscribeStep "a" 1 {}
        initialState)))).listeners ≠
    (subscribeStep "a" 1 {} (unsubscribeStep "a" 1 (subscribeStep "a" 1 {}
      initialState))).listeners := by
  decide

/-- C9 (amended): the unsubscribe closure is idempotent under any
interleaving that does not re-register the same callback for the same
key (re-registration being undefined behaviour per the data model): in
any reachable state in which the captured callback is not registered for
the captured key — as is the case after its first invocation — invoking
the closure leaves the whole manager state (registry, snapshot cache,
and polling timer) unchanged. -/
theorem c9_unsubscribe_idempotent {s : ManagerState} {k : String} {cb : Nat}
    (hs : Reachable s) (hreg : registeredFor s k cb = false) :
    unsubscribeStep k cb s = s := by
  have hinv := reachable_mgrInv hs
  obtain ⟨hwf, -, -⟩ := reachable_mgrInv hs
  unfold unsubscribeStep
  rcases hl : alookup s.listeners k with _ | cbs
  · simp only [hl]
    exact update_noop hinv
  · simp only [hl]
    have hmemk : (k, cbs) ∈ s.listeners := alookup_mem hl
    have hnotin : ∀ c ∈ cbs, c.1 ≠ cb := by
      intro c hc he
      unfold registeredFor listenersFor at hreg
      rw [hl] at hreg
      simp only [Option.getD_some] at hreg
      rw [List.any_eq_false] at hreg
      exact (hreg c hc) (by simpa using he)
    have hfix : cbs.filter (fun c => decide (c.1 ≠ cb)) = cbs :=
      List.filter_eq_self.mpr (fun c hc => by simpa using hnotin c hc)
    rw [hfix]
    have hne : cbs ≠ [] := (hwf.2.1 k cbs hmemk).1
    rw [if_neg (by simpa [List.length_eq_zero] using hne)]
    rw [aset_eq_self hwf.1 hl]
    exact update_noop hinv

/-- C9 witness: the closure applied a second time, after its first
invocation removed the registration, changes nothing. -/
theorem c9_witness :
    unsubscribeStep "a" 1 (unsubscribeStep "a" 1
      (subscribeStep "a" 1 {} initialState)) =
    unsubscribeStep "a" 1 (subscribeStep "a" 1 {} initialState) :=
  c9_unsubscribe_idempotent
    (Reachable.unsubscribe "a" 1 (Reachable.subscribe "a" 1 {}
      Reachable.init))
    (by decide)

/-- C1: in every reachable state, at most one polling timer is live; a
live timer's interval is a member of — and a JS-`<=` lower bound of —
the normalized intervals of all polling-enabled listeners across all
keys; and when no listener has polling enabled, no timer is live. -/
theorem c1_scheduler_singularity {s : ManagerState} (hs : Reachable s) :
    s.activeTimers.length ≤ 1 ∧
    (∀ t ∈ s.activeTimers, t.2 ∈ enabledIntervals s ∧
      ∀ x ∈ enabledIntervals s, jsLe t.2 x = true) ∧
    (enabledIntervals s = [] → s.activeTimers = []) := by
  obtain ⟨hwf, htimer, -⟩ := reachable_mgrInv hs
  have hnn := enabledIntervals_no_nan hwf
  unfold TimerInv at htimer
  rcases hid : s.pollingIntervalId with _ | i <;>
    rcases hms : s.pollingIntervalMsActive with _ | m <;>
    rw [hid, hms] at htimer
  · obtain ⟨ht, -⟩ := htimer
    rw [ht]
    exact ⟨by simp, by simp, fun _ => rfl⟩
  · exact absurd htimer (by simp)
  · exact absurd htimer (by simp)
  · obtain ⟨ht, hnan, hmin⟩ := htimer
    rw [ht]
    refine ⟨by simp, ?_, ?_⟩
    · intro t htm
      rw [List.mem_singleton] at htm
      subst htm
      rw [getMin_eq_foldl] at hmin
      obtain ⟨-, hsrc, hle, -⟩ := (foldl_minStep_spec (enabledIntervals s)
        hnn none (by simp)).2 m hmin
      rcases hsrc with hsrc | hsrc
      · exact absurd hsrc (by simp)
      · exact ⟨hsrc, hle⟩
    · intro he
      exfalso
      have h0 := getMin_none_iff.mpr he
      rw [hmin] at h0
      exact Option.noConfusion h0

/-- C1 witness: one enabled listener at 100 ms — exactly one timer, at
interval 100, which is the minimum. -/
theorem c1_witness :
    (subscribeStep "a" 1 { pollingIntervalMs := NumArg.num (JSNum.fin 100) }
      initialState).activeTimers.length ≤ 1 ∧
    (∀ t ∈ (subscribeStep "a" 1
        { pollingIntervalMs := NumArg.num (JSNum.fin 100) }
        initialState).activeTimers,
      t.2 ∈ enabledIntervals (subscribeStep "a" 1
        { pollingIntervalMs := NumArg.num (JSNum.fin 100) } initialState) ∧
      ∀ x ∈ enabledIntervals (subscribeStep "a" 1
        { pollingIntervalMs := NumArg.num (JSNum.fin 100) } initialState),
        jsLe t.2 x = true) ∧
    (enabledIntervals (subscribeStep "a" 1
        { pollingIntervalMs := NumArg.num (JSNum.fin 100) } initialState) =
      [] →
      (subscribeStep "a" 1 { pollingIntervalMs := NumArg.num (JSNum.fin 100) }
        initialState).activeTimers = []) :=
  c1_scheduler_singularity (Reachable.subscribe "a" 1
    { pollingIntervalMs := NumArg.num (JSNum.fin 100) } Reachable.init)
